import Mathlib

/-!
Shallow embedding of the flow-queue module (`src/flow-queue.c`) and of the
ERF file packet source (`src/source-erf-file.c`) of the suricata-tilera
repository, together with proofs of the specified properties.

The flow queue is an intrusive doubly-linked list: each flow record carries
`lnext`/`lprev` link fields, and a queue holds `top` (head, most recently
inserted), `bot` (tail, oldest) and `len`.  We model flow records by natural
number identifiers and the intrusive link fields by a heap assigning link
values to every identifier.  Each C statement of the queue operations is
translated in order, reading the state current at that statement.
-/

namespace SuricataTilera

/-! ### Definitions -/

/-- Identifier standing for a `Flow *` (a non-null flow record pointer). -/
abbrev FlowId := Nat

/-- Identifier standing for a `FlowQueue *` (a non-null queue pointer). -/
abbrev QId := Nat

/-- The two intrusive link fields of a `Flow` used by the queue module:
`f->lnext` points one step toward `bot`, `f->lprev` one step toward `top`.
`none` models a NULL pointer. -/
structure FlowLinks where
  lnext : Option FlowId
  lprev : Option FlowId
deriving DecidableEq, Repr

/-- The link-field heap: the `lnext`/`lprev` fields of every flow record. -/
abbrev Heap := FlowId → FlowLinks

/-- Write `x->lnext = v`. -/
def setLnext (h : Heap) (x : FlowId) (v : Option FlowId) : Heap :=
  fun y => if y = x then { h x with lnext := v } else h y

/-- Write `x->lprev = v`. -/
def setLprev (h : Heap) (x : FlowId) (v : Option FlowId) : Heap :=
  fun y => if y = x then { h x with lprev := v } else h y

/-- Read `x->lnext`. -/
def lnextOf (h : Heap) (x : FlowId) : Option FlowId := (h x).lnext

/-- Read `x->lprev`. -/
def lprevOf (h : Heap) (x : FlowId) : Option FlowId := (h x).lprev

/-- The `FlowQueue` structure of `flow-queue.h` as used by `flow-queue.c`:
list ends `top`/`bot`, the length counter `len`, the diagnostic high-water
counter `dbg_maxlen`, and the initialization state of the mutex and the
condition variable (the generic, non-`__tile__` build). -/
structure FlowQueue where
  top : Option FlowId
  bot : Option FlowId
  len : Nat
  dbg_maxlen : Nat
  mutexInit : Bool
  condInit : Bool
deriving DecidableEq, Repr

/-- `FlowQueueInit`: on a non-NULL queue, `memset` everything to zero and
initialize the mutex and the condition variable; a NULL argument is passed
through. -/
def FlowQueueInit : Option FlowQueue → Option FlowQueue
  | none => none
  | some _ => some { top := none, bot := none, len := 0, dbg_maxlen := 0,
                     mutexInit := true, condInit := true }

/-- Result of `FlowQueueNew`: either the process exits fatally (allocation
returned NULL) or a queue is returned. -/
inductive NewResult where
  | fatalExit
  | ok (q : FlowQueue)
deriving DecidableEq, Repr

/-- `FlowQueueNew`: `SCMalloc` either fails (modelled by `none`, on which the
code logs a fatal error and calls `exit`) or yields a raw uninitialized queue
`q`, which is then passed through `FlowQueueInit` and returned. -/
def FlowQueueNew (alloc : Option FlowQueue) : NewResult :=
  match alloc with
  | none => NewResult.fatalExit
  | some q =>
    match FlowQueueInit (some q) with
    | some q2 => NewResult.ok q2
    | none => NewResult.ok q

/-- `FlowQueueDestroy`: destroys the mutex and the condition variable and
touches nothing else.  The heap of flow-record link fields is threaded
through unchanged to make the frame condition statable: the C function never
dereferences any flow record. -/
def FlowQueueDestroy (h : Heap) (q : FlowQueue) : Heap × FlowQueue :=
  (h, { q with mutexInit := false, condInit := false })

/-- `FlowEnqueue`: link `f` in at `top` (head); the caller synchronizes.
Statement order follows the C source: in the non-empty branch
`f->lnext = q->top; q->top->lprev = f; q->top = f`, in the empty branch
`q->top = f; q->bot = f`; then `q->len++`.  (The `DBG_PERF` high-water
update is compiled out in the default build.) -/
def FlowEnqueue (h : Heap) (q : FlowQueue) (f : FlowId) : Heap × FlowQueue :=
  match q.top with
  | some t =>
    let h1 := setLnext h f (some t)
    let h2 := setLprev h1 t (some f)
    (h2, { q with top := some f, len := q.len + 1 })
  | none =>
    (h, { q with top := some f, bot := some f, len := q.len + 1 })

/-- `FlowDequeue`: remove and return the record at `bot` (tail), or return
NULL (`none`) when the queue is empty.  Statement order follows the C source:
`f = q->bot`; if `f` is NULL return NULL; if `q->bot->lprev` is non-NULL then
`q->bot = q->bot->lprev; q->bot->lnext = NULL` else `q->top = NULL;
q->bot = NULL`; `q->len--`; `f->lnext = NULL; f->lprev = NULL`; return `f`. -/
def FlowDequeue (h : Heap) (q : FlowQueue) : Option FlowId × Heap × FlowQueue :=
  match q.bot with
  | none => (none, h, q)
  | some f =>
    match (h f).lprev with
    | some p =>
      let q1 : FlowQueue := { q with bot := some p }
      let h1 := setLnext h p none
      let q2 : FlowQueue := { q1 with len := q1.len - 1 }
      let h2 := setLprev (setLnext h1 f none) f none
      (some f, h2, q2)
    | none =>
      let q1 : FlowQueue := { q with top := none, bot := none, len := q.len - 1 }
      let h1 := setLprev (setLnext h f none) f none
      (some f, h1, q1)

/-- The unlink phase of `FlowRequeue` (lines 155–168 of `flow-queue.c`),
statement by statement, each statement reading the state left by the
previous one:
`if (srcq->top == f) srcq->top = f->lnext;`
`if (srcq->bot == f) srcq->bot = f->lprev;`
`if (f->lprev) f->lprev->lnext = f->lnext;`
`if (f->lnext) f->lnext->lprev = f->lprev;`
`srcq->len--;  f->lnext = NULL;  f->lprev = NULL;` -/
def requeueUnlink (h : Heap) (q : FlowQueue) (f : FlowId) : Heap × FlowQueue :=
  let q1 := if q.top = some f then { q with top := (h f).lnext } else q
  let q2 := if q1.bot = some f then { q1 with bot := (h f).lprev } else q1
  let h1 := match (h f).lprev with
    | some p => setLnext h p ((h f).lnext)
    | none => h
  let h2 := match (h1 f).lnext with
    | some n => setLprev h1 n ((h1 f).lprev)
    | none => h1
  let q3 := { q2 with len := q2.len - 1 }
  let h3 := setLprev (setLnext h2 f none) f none
  (h3, q3)

/-- The append phase of `FlowRequeue` (lines 189–198 of `flow-queue.c`),
statement by statement:
`f->lprev = dstq->bot;`
`if (f->lprev) f->lprev->lnext = f;`
`f->lnext = NULL;`
`dstq->bot = f;`
`if (dstq->top == NULL) dstq->top = f;`
`dstq->len++;` -/
def requeueAppend (h : Heap) (q : FlowQueue) (f : FlowId) : Heap × FlowQueue :=
  let h1 := setLprev h f q.bot
  let h2 := match (h1 f).lprev with
    | some p => setLnext h1 p (some f)
    | none => h1
  let h3 := setLnext h2 f none
  let q1 : FlowQueue := { q with bot := some f }
  let q2 := if q1.top = none then { q1 with top := some f } else q1
  let q3 := { q2 with len := q2.len + 1 }
  (h3, q3)

/-- A world: the link-field heap together with every queue, addressed by
queue identifier, so that `FlowRequeue` with aliased source and destination
pointers acts on the one shared queue structure. -/
structure World where
  heap : Heap
  queues : QId → FlowQueue

/-- `FlowRequeue`: unlink `f` from the source queue (when one is given), then
append it at the destination queue's `bot`.  The `need_srclock` flag affects
only locking (modelled separately by `FlowRequeueLocks`), not the data
transformation. -/
def FlowRequeue (w : World) (f : FlowId) (srcq : Option QId) (dstq : QId) : World :=
  let w1 : World := match srcq with
    | some s =>
      let r := requeueUnlink w.heap (w.queues s) f
      { heap := r.1, queues := fun i => if i = s then r.2 else w.queues i }
    | none => w
  let r2 := requeueAppend w1.heap (w1.queues dstq) f
  { heap := r2.1, queues := fun i => if i = dstq then r2.2 else w1.queues i }

/-- `chainFrom link p L` holds when `link x = p` for the first element `x` of
`L` and `link y = some x` whenever `x` immediately precedes `y` in `L`. -/
def chainFrom (link : FlowId → Option FlowId) (p : Option FlowId) : List FlowId → Bool
  | [] => true
  | x :: rest => (link x == p) && chainFrom link (some x) rest

/-- The link value that the element following list `A` must carry: `p` when
`A` is empty, otherwise the last element of `A`. -/
def lastPtr (p : Option FlowId) : List FlowId → Option FlowId
  | [] => p
  | a :: A => lastPtr (some a) A

/-- `QueueRep h q L`: the queue `q` represents exactly the list `L` of
member records, in top-to-bot order, in heap `h`:
* `top` is the head and `bot` the last element of `L`;
* `len` is the number of members;
* members are pairwise distinct;
* the `lprev` fields chain each member to the one above it, the topmost to
  NULL; the `lnext` fields chain each member to the one below it, the
  bottommost to NULL. -/
def QueueRep (h : Heap) (q : FlowQueue) (L : List FlowId) : Prop :=
  q.top = L.head? ∧ q.bot = L.getLast? ∧ q.len = L.length ∧ L.Nodup ∧
  chainFrom (lprevOf h) none L = true ∧
  chainFrom (lnextOf h) none L.reverse = true

instance (h : Heap) (q : FlowQueue) (L : List FlowId) : Decidable (QueueRep h q L) := by
  unfold QueueRep; infer_instance

/-- Insert the records of `rs` one after the other with `FlowEnqueue`. -/
def enqueueAll (h : Heap) (q : FlowQueue) : List FlowId → Heap × FlowQueue
  | [] => (h, q)
  | r :: rs =>
    let p := FlowEnqueue h q r
    enqueueAll p.1 p.2 rs

/-- Call `FlowDequeue` `n` times, collecting the returned values. -/
def dequeueN (h : Heap) (q : FlowQueue) : Nat → List (Option FlowId) × Heap × FlowQueue
  | 0 => ([], h, q)
  | n + 1 =>
    let p := FlowDequeue h q
    let rest := dequeueN p.2.1 p.2.2 n
    (p.1 :: rest.1, rest.2)

/-- Follow `link` from `start`, collecting at most `fuel` records. -/
def walk (link : FlowId → Option FlowId) : Nat → Option FlowId → List FlowId
  | _, none => []
  | 0, some _ => []
  | n + 1, some x => x :: walk link n (link x)

/-- A mutex acquisition/release or a condition-variable wait on queue `i`. -/
inductive LockEvent where
  | acq (i : QId)
  | rel (i : QId)
  | wait (i : QId)
deriving DecidableEq, Repr

/-- The sequence of mutex operations performed by one `FlowRequeue` call
(generic build): acquire the source lock when a source is given and
`need_srclock == 1`; release it unless source and destination are the same
queue pointer (and only if `need_srclock == 1`); acquire the destination
lock unless source and destination are the same pointer; finally release the
destination lock unconditionally. -/
def FlowRequeueLocks (srcq : Option QId) (dstq : QId) (need_srclock : Nat) :
    List LockEvent :=
  (match srcq with
   | some s =>
     (if need_srclock = 1 then [LockEvent.acq s] else []) ++
     (if s ≠ dstq ∧ need_srclock = 1 then [LockEvent.rel s] else [])
   | none => []) ++
  (if srcq ≠ some dstq then [LockEvent.acq dstq] else []) ++
  [LockEvent.rel dstq]

/-- The mutex operations performed by one `FlowDequeue` call on queue `i`:
lock, then unlock, on both the empty and the non-empty path; the condition
variable `cond_q` is never waited on. -/
def FlowDequeueLocks (i : QId) (q : FlowQueue) : List LockEvent :=
  match q.bot with
  | none => [LockEvent.acq i, LockEvent.rel i]
  | some _ => [LockEvent.acq i, LockEvent.rel i]

/-- Update the multiset of held locks by one event. -/
def updHeld (held : List QId) : LockEvent → List QId
  | LockEvent.acq i => i :: held
  | LockEvent.rel i => held.erase i
  | LockEvent.wait _ => held

/-- Does a point of the trace exist at which locks `i` and `j` are held
simultaneously (starting from the locks in `held`)? -/
def bothHeldDuring (held : List QId) (i j : QId) : List LockEvent → Bool
  | [] => false
  | e :: tr =>
    let held2 := updHeld held e
    (decide (i ∈ held2) && decide (j ∈ held2)) || bothHeldDuring held2 i j tr

/-- Thread-module return codes (`TmEcode`); `ReceiveErfFile` only ever
returns `ok` or `failed`. -/
inductive TmEcode where
  | ok
  | failed
  | done
deriving DecidableEq, Repr

/-- The on-disk ERF record header (`DagRecord`), fields as read: a 64-bit
timestamp, the record type byte, the flags byte, and the 16-bit big-endian
`rlen`/`lctr`/`wlen`/`pad` fields. -/
structure DagRecord where
  ts : Nat
  type : Nat
  flags : Nat
  rlen : Nat
  lctr : Nat
  wlen : Nat
  pad : Nat
deriving DecidableEq, Repr

/-- `ntohs` on the little-endian hosts this tree targets: swap the two bytes
of a 16-bit value. -/
def ntohs (x : Nat) : Nat := (x % 256) * 256 + (x / 256) % 256

/-- The `timeval` written into `p->ts`. -/
structure Timeval where
  tv_sec : Nat
  tv_usec : Nat
deriving DecidableEq, Repr

/-- The ERF timestamp conversion of `ReceiveErfFile` (lines 141–150), on the
64-bit fixed-point (32.32) ERF timestamp: seconds are the high word;
`ts = (ts & 0xffffffffULL) * 1000000; ts += 0x80000000;` in `uint64_t`
arithmetic; microseconds are then `ts >> 32`, with a carry into the seconds
when they reach 1000000. -/
def erfTimeval (ts : Nat) : Timeval :=
  let sec := ts >>> 32
  let lo := ((ts &&& 0xffffffff) * 1000000) % 2 ^ 64
  let lo2 := (lo + 0x80000000) % 2 ^ 64
  let usec := lo2 >>> 32
  if usec ≥ 1000000 then { tv_sec := sec + 1, tv_usec := usec - 1000000 }
  else { tv_sec := sec, tv_usec := usec }

/-- The outside-world inputs of one `ReceiveErfFile` call: the header
`fread` either yields a full `DagRecord` or comes up short (`none`, end of
file or read error), and the payload `fread` either succeeds or comes up
short. -/
structure ErfInput where
  hdr : Option DagRecord
  payloadOk : Bool

/-- What one `ReceiveErfFile` call exposes to the pipeline: its return code,
whether it called `EngineStop()`, and the packet length / capture timestamp
/ datalink fields it set (or left unset) on the packet. -/
structure ReceiveResult where
  ecode : TmEcode
  engineStop : Bool
  pktLen : Option Int
  pktTs : Option Timeval
  datalinkSet : Bool

/-- `DAG_TYPE_ETH` — the only record type the reader implements. -/
def DAG_TYPE_ETH : Nat := 2

/-- `ReceiveErfFile`: a short header read or a short payload read logs,
calls `EngineStop()` and returns `TM_ECODE_FAILED`; an unimplemented record
type logs an error and returns `TM_ECODE_FAILED` without stopping the
engine; otherwise the packet length is set to `wlen - 4` (FCS trimmed), the
datalink to Ethernet and the timestamp converted, and `TM_ECODE_OK` is
returned.  (`rlen` only sizes the payload read, whose outcome `payloadOk`
captures.) -/
def ReceiveErfFile (inp : ErfInput) : ReceiveResult :=
  match inp.hdr with
  | none =>
    { ecode := TmEcode.failed, engineStop := true, pktLen := none, pktTs := none,
      datalinkSet := false }
  | some dr =>
    if !inp.payloadOk then
      { ecode := TmEcode.failed, engineStop := true, pktLen := none, pktTs := none,
        datalinkSet := false }
    else if dr.type ≠ DAG_TYPE_ETH then
      { ecode := TmEcode.failed, engineStop := false, pktLen := none, pktTs := none,
        datalinkSet := false }
    else
      { ecode := TmEcode.ok, engineStop := false,
        pktLen := some ((ntohs dr.wlen : Int) - 4),
        pktTs := some (erfTimeval dr.ts),
        datalinkSet := true }

/-- The structural invariants of one queue: `top` is unset iff `bot` is
unset iff `len = 0`; the records at `top`/`bot` (when present) have
`lprev`/`lnext` unset; and `len` equals the number of records reached from
`top` along `lnext` and from `bot` along `lprev`. -/
def QueueInv (h : Heap) (q : FlowQueue) : Prop :=
  (q.top = none ↔ q.bot = none) ∧ (q.top = none ↔ q.len = 0) ∧
  (∀ t, q.top = some t → (h t).lprev = none) ∧
  (∀ b, q.bot = some b → (h b).lnext = none) ∧
  (walk (lnextOf h) (q.len + 1) q.top).length = q.len ∧
  (walk (lprevOf h) (q.len + 1) q.bot).length = q.len

/-- Example heap: records 1–2–3 doubly linked (1 at `top`, 3 at `bot`); all
other records unlinked. -/
def exHeap : Heap := fun x =>
  if x = 1 then { lnext := some 2, lprev := none }
  else if x = 2 then { lnext := some 3, lprev := some 1 }
  else if x = 3 then { lnext := none, lprev := some 2 }
  else { lnext := none, lprev := none }

/-- Example queue holding records 1–2–3. -/
def exQueue : FlowQueue :=
  { top := some 1, bot := some 3, len := 3, dbg_maxlen := 0,
    mutexInit := true, condInit := true }

/-- An initialized empty queue. -/
def emptyQueue : FlowQueue :=
  { top := none, bot := none, len := 0, dbg_maxlen := 0,
    mutexInit := true, condInit := true }

/-- A heap in which no record is linked anywhere. -/
def cleanHeap : Heap := fun _ => { lnext := none, lprev := none }

/-- Example world: queue 0 holds records 1–2–3, every other queue is empty. -/
def exWorld : World :=
  { heap := exHeap, queues := fun i => if i = 0 then exQueue else emptyQueue }

/-! ### Theorems -/

@[simp] theorem lnextOf_setLnext (h : Heap) (x : FlowId) (v : Option FlowId) (y : FlowId) :
    lnextOf (setLnext h x v) y = if y = x then v else lnextOf h y := by
  by_cases hxy : y = x <;> simp [lnextOf, setLnext, hxy]

@[simp] theorem lprevOf_setLnext (h : Heap) (x : FlowId) (v : Option FlowId) (y : FlowId) :
    lprevOf (setLnext h x v) y = lprevOf h y := by
  by_cases hxy : y = x <;> simp [lprevOf, setLnext, hxy]

@[simp] theorem lnextOf_setLprev (h : Heap) (x : FlowId) (v : Option FlowId) (y : FlowId) :
    lnextOf (setLprev h x v) y = lnextOf h y := by
  by_cases hxy : y = x <;> simp [lnextOf, setLprev, hxy]

@[simp] theorem lprevOf_setLprev (h : Heap) (x : FlowId) (v : Option FlowId) (y : FlowId) :
    lprevOf (setLprev h x v) y = if y = x then v else lprevOf h y := by
  by_cases hxy : y = x <;> simp [lprevOf, setLprev, hxy]

theorem setLnext_other (h : Heap) (x : FlowId) (v : Option FlowId) (y : FlowId)
    (hy : y ≠ x) : setLnext h x v y = h y := by
  simp [setLnext, hy]

theorem setLprev_other (h : Heap) (x : FlowId) (v : Option FlowId) (y : FlowId)
    (hy : y ≠ x) : setLprev h x v y = h y := by
  simp [setLprev, hy]

@[simp] theorem lastPtr_nil (p : Option FlowId) : lastPtr p [] = p := rfl

theorem lastPtr_cons (p : Option FlowId) (a : FlowId) (A : List FlowId) :
    lastPtr p (a :: A) = lastPtr (some a) A := rfl

theorem lastPtr_indep : ∀ (A : List FlowId) (p1 p2 : Option FlowId), A ≠ [] →
    lastPtr p1 A = lastPtr p2 A
  | [], _, _, hne => absurd rfl hne
  | a :: A, p1, p2, _ => by
    cases A with
    | nil => rfl
    | cons b B => exact lastPtr_indep (b :: B) (some a) (some a) (by simp)

@[simp] theorem lastPtr_none : ∀ (A : List FlowId), lastPtr none A = A.getLast?
  | [] => rfl
  | a :: A => by
    cases A with
    | nil => rfl
    | cons b B =>
      rw [lastPtr_cons, lastPtr_indep (b :: B) (some a) none (by simp),
        lastPtr_none (b :: B), List.getLast?_cons_cons]

@[simp] theorem lastPtr_concat : ∀ (A : List FlowId) (p : Option FlowId) (a : FlowId),
    lastPtr p (A ++ [a]) = some a
  | [], _, _ => rfl
  | b :: B, p, a => by
    rw [List.cons_append, lastPtr_cons, lastPtr_concat B (some b) a]

theorem chainFrom_congr {l1 l2 : FlowId → Option FlowId} :
    ∀ (L : List FlowId) (p : Option FlowId), (∀ x ∈ L, l1 x = l2 x) →
      chainFrom l1 p L = chainFrom l2 p L
  | [], _, _ => rfl
  | x :: rest, p, hagree => by
    have hx : l1 x = l2 x := hagree x (List.mem_cons_self x rest)
    have hrest := chainFrom_congr rest (some x) (fun y hy => hagree y (List.mem_cons_of_mem x hy))
    simp [chainFrom, hx, hrest]

theorem chainFrom_append (l : FlowId → Option FlowId) :
    ∀ (A B : List FlowId) (p : Option FlowId),
      chainFrom l p (A ++ B) = (chainFrom l p A && chainFrom l (lastPtr p A) B)
  | [], B, p => by simp [chainFrom]
  | a :: A', B, p => by
    have ih := chainFrom_append l A' B (some a)
    simp [chainFrom, ih, lastPtr_cons, Bool.and_assoc]

theorem QueueRep_congr {h1 h2 : Heap} {q : FlowQueue} {L : List FlowId}
    (hagree : ∀ x ∈ L, h1 x = h2 x) (hrep : QueueRep h1 q L) : QueueRep h2 q L := by
  obtain ⟨ht, hb, hl, hnd, hp, hn⟩ := hrep
  refine ⟨ht, hb, hl, hnd, ?_, ?_⟩
  · exact (@chainFrom_congr (lprevOf h1) (lprevOf h2) L none
      (fun x hx => by simp [lprevOf, hagree x hx])) ▸ hp
  · exact (@chainFrom_congr (lnextOf h1) (lnextOf h2) L.reverse none
      (fun x hx => by simp [lnextOf, hagree x (List.mem_reverse.mp hx)])) ▸ hn

/-- Splitting the no-duplicates property of `A ++ f :: B`. -/
theorem nodup_mid {A B : List FlowId} {f : FlowId} (h : (A ++ f :: B).Nodup) :
    A.Nodup ∧ B.Nodup ∧ f ∉ A ∧ f ∉ B ∧ ∀ x ∈ A, x ∉ B := by
  rw [List.nodup_append] at h
  obtain ⟨hA, hfB, hdisj⟩ := h
  rw [List.nodup_cons] at hfB
  refine ⟨hA, hfB.2, ?_, hfB.1, ?_⟩
  · intro hfA
    exact (hdisj hfA (List.mem_cons_self f B)).elim
  · intro x hxA hxB
    exact (hdisj hxA (List.mem_cons_of_mem f hxB)).elim

theorem chainFrom_cons (l : FlowId → Option FlowId) (p : Option FlowId) (x : FlowId)
    (rest : List FlowId) :
    chainFrom l p (x :: rest) = ((l x == p) && chainFrom l (some x) rest) := rfl

theorem chainFrom_true_cons {l : FlowId → Option FlowId} {p : Option FlowId} {x : FlowId}
    {rest : List FlowId} (h : chainFrom l p (x :: rest) = true) :
    l x = p ∧ chainFrom l (some x) rest = true := by
  rw [chainFrom_cons] at h
  simp only [Bool.and_eq_true, beq_iff_eq] at h
  exact h

theorem chainFrom_cons_true {l : FlowId → Option FlowId} {p : Option FlowId} {x : FlowId}
    {rest : List FlowId} (h1 : l x = p) (h2 : chainFrom l (some x) rest = true) :
    chainFrom l p (x :: rest) = true := by
  rw [chainFrom_cons]
  simp [h1, h2]

theorem chainFrom_append_true {l : FlowId → Option FlowId} {A B : List FlowId}
    {p : Option FlowId} (h1 : chainFrom l p A = true)
    (h2 : chainFrom l (lastPtr p A) B = true) : chainFrom l p (A ++ B) = true := by
  rw [chainFrom_append]
  simp [h1, h2]

/-- `FlowEnqueue` prepends `f` as new `top`, touching no record other than
`f` and the old `top`. -/
theorem FlowEnqueue_rep {h : Heap} {q : FlowQueue} {L : List FlowId} {f : FlowId}
    (hrep : QueueRep h q L) (hfL : f ∉ L)
    (hfn : (h f).lnext = none) (hfp : (h f).lprev = none) :
    QueueRep (FlowEnqueue h q f).1 (FlowEnqueue h q f).2 (f :: L) ∧
    (∀ x, x ≠ f → x ∉ L → (FlowEnqueue h q f).1 x = h x) := by
  obtain ⟨ht, hb, hl, hnd, hp, hn⟩ := hrep
  have hfn' : lnextOf h f = none := hfn
  have hfp' : lprevOf h f = none := hfp
  cases hq : q.top with
  | none =>
    have hL : L = [] := by
      cases L with
      | nil => rfl
      | cons a L' => rw [hq] at ht; simp at ht
    subst hL
    refine ⟨?_, ?_⟩
    · simp [FlowEnqueue, hq, QueueRep, chainFrom, hfn', hfp', hl]
    · intro x hxf hxL
      simp [FlowEnqueue, hq]
  | some t =>
    have hhead : L.head? = some t := by rw [← ht, hq]
    obtain ⟨L', rfl⟩ : ∃ L', L = t :: L' := by
      cases L with
      | nil => simp at hhead
      | cons a L' =>
        simp only [List.head?_cons, Option.some.injEq] at hhead
        exact ⟨L', by rw [hhead]⟩
    have hft : f ≠ t := by intro he; exact hfL (he ▸ List.mem_cons_self t L')
    have hndL := List.nodup_cons.mp hnd
    obtain ⟨hpt, hprest⟩ := chainFrom_true_cons hp
    -- notation for the heap after the two link writes
    set h2 := setLprev (setLnext h f (some t)) t (some f) with hh2
    have hE : FlowEnqueue h q f =
        (h2, { q with top := some f, len := q.len + 1 }) := by
      rw [FlowEnqueue, hq]
    rw [hE]
    have h2fprev : lprevOf h2 f = none := by simp [hh2, hft, hfp']
    have h2fnext : lnextOf h2 f = some t := by simp [hh2]
    have h2tprev : lprevOf h2 t = some f := by simp [hh2]
    refine ⟨⟨?_, ?_, ?_, ?_, ?_, ?_⟩, ?_⟩
    · rfl
    · rw [hb, List.getLast?_cons_cons]
    · simpa using hl
    · exact List.nodup_cons.mpr ⟨hfL, hnd⟩
    · refine chainFrom_cons_true h2fprev (chainFrom_cons_true h2tprev ?_)
      have hcongr : chainFrom (lprevOf h2) (some t) L' =
          chainFrom (lprevOf h) (some t) L' := by
        apply chainFrom_congr
        intro x hx
        have hxt : x ≠ t := fun he => hndL.1 (he ▸ hx)
        have hxf : x ≠ f := fun he => hfL (he ▸ List.mem_cons_of_mem t hx)
        simp [hh2, hxt, hxf]
      rw [hcongr]; exact hprest
    · rw [List.reverse_cons]
      refine chainFrom_append_true ?_ ?_
      · have hcongr : chainFrom (lnextOf h2) none (t :: L').reverse =
            chainFrom (lnextOf h) none (t :: L').reverse := by
          apply chainFrom_congr
          intro x hx
          have hxf : x ≠ f := fun he => hfL (he ▸ List.mem_reverse.mp hx)
          simp [hh2, hxf]
        rw [hcongr]; exact hn
      · have hlast : lastPtr none (t :: L').reverse = some t := by
          rw [lastPtr_none, List.getLast?_reverse]; rfl
        rw [hlast]
        exact chainFrom_cons_true h2fnext rfl
    · intro x hxf hxL
      have hxt : x ≠ t := fun he => hxL (he ▸ List.mem_cons_self t L')
      show setLprev (setLnext h f (some t)) t (some f) x = h x
      rw [setLprev_other _ _ _ _ hxt, setLnext_other _ _ _ _ hxf]

theorem head?_append_left {A : List FlowId} (B : List FlowId) (hA : A ≠ []) :
    (A ++ B).head? = A.head? := by
  cases A with
  | nil => exact absurd rfl hA
  | cons a A' => rfl

theorem and_true_left {a b : Bool} (h : (a && b) = true) : a = true := by
  cases a <;> simp_all

theorem and_true_right {a b : Bool} (h : (a && b) = true) : b = true := by
  cases a <;> simp_all

/-- `FlowDequeue` on an empty queue returns NULL and changes nothing. -/
theorem FlowDequeue_rep_nil {h : Heap} {q : FlowQueue} (hrep : QueueRep h q []) :
    FlowDequeue h q = (none, h, q) := by
  obtain ⟨ht, hb, hl, hnd, hp, hn⟩ := hrep
  have hb0 : q.bot = none := by simpa using hb
  simp [FlowDequeue, hb0]

/-- `FlowDequeue` on a queue representing `L' ++ [x]` removes and returns the
oldest record `x`, clears its link fields, and leaves a queue representing
`L'`, touching no record other than `x` and the new `bot`. -/
theorem FlowDequeue_rep_concat {h : Heap} {q : FlowQueue} {L' : List FlowId} {x : FlowId}
    (hrep : QueueRep h q (L' ++ [x])) :
    (FlowDequeue h q).1 = some x ∧
    QueueRep (FlowDequeue h q).2.1 (FlowDequeue h q).2.2 L' ∧
    ((FlowDequeue h q).2.1 x).lnext = none ∧
    ((FlowDequeue h q).2.1 x).lprev = none ∧
    (FlowDequeue h q).2.2.len = q.len - 1 ∧
    (∀ y, y ≠ x → y ∉ L' → (FlowDequeue h q).2.1 y = h y) := by
  obtain ⟨ht, hb, hl, hnd, hp, hn⟩ := hrep
  have hbx : q.bot = some x := by rw [hb, List.getLast?_concat]
  have hxL' : x ∉ L' := (nodup_mid (A := L') (B := []) hnd).2.2.1
  have hndL' : L'.Nodup := (nodup_mid (A := L') (B := []) hnd).1
  -- the lprev field of x is the last element of L'
  have hsplit := chainFrom_append (lprevOf h) L' [x] none
  rw [hp] at hsplit
  have hxprev : lprevOf h x = lastPtr none L' := by
    have hr := and_true_right hsplit.symm
    simpa [chainFrom] using hr
  rcases List.eq_nil_or_concat L' with hL' | ⟨L'', p, hL'⟩
  · -- queue held exactly one record
    subst hL'
    have hxp : (h x).lprev = none := by simpa using hxprev
    have hD : FlowDequeue h q =
        (some x, setLprev (setLnext h x none) x none,
          { q with top := none, bot := none, len := q.len - 1 }) := by
      simp only [FlowDequeue, hbx, hxp]
    rw [hD]
    refine ⟨rfl, ⟨rfl, rfl, ?_, by simp, rfl, rfl⟩, ?_, ?_, rfl, ?_⟩
    · show q.len - 1 = ([] : List FlowId).length
      simp only [List.length_append, List.length_cons, List.length_nil] at hl
      simp only [List.length_nil]
      omega
    · simp [setLprev, setLnext]
    · simp [setLprev]
    · intro y hyx _
      show setLprev (setLnext h x none) x none y = h y
      rw [setLprev_other _ _ _ _ hyx, setLnext_other _ _ _ _ hyx]
  · -- more records remain: the one above x becomes the new bot
    rw [List.concat_eq_append] at hL'
    subst hL'
    have hxp : (h x).lprev = some p := by
      have hxp' : lprevOf h x = some p := by rw [hxprev, lastPtr_concat]
      exact hxp'
    have hpx : p ≠ x := by
      intro he
      exact hxL' (he ▸ List.mem_concat_self L'' p)
    set h2 := setLprev (setLnext (setLnext h p none) x none) x none with hh2
    have hD : FlowDequeue h q =
        (some x, h2, { q with bot := some p, len := q.len - 1 }) := by
      simp only [FlowDequeue, hbx, hxp, hh2]
    rw [hD]
    have hframe : ∀ y, y ≠ x → y ≠ p → h2 y = h y := by
      intro y hyx hyp
      rw [hh2, setLprev_other _ _ _ _ hyx, setLnext_other _ _ _ _ hyx,
        setLnext_other _ _ _ _ hyp]
    refine ⟨rfl, ⟨?_, ?_, ?_, hndL', ?_, ?_⟩, ?_, ?_, rfl, ?_⟩
    · show q.top = (L'' ++ [p]).head?
      rw [ht, head?_append_left [x] (by simp)]
    · show some p = (L'' ++ [p]).getLast?
      rw [List.getLast?_concat]
    · show q.len - 1 = (L'' ++ [p]).length
      simp only [List.length_append, List.length_cons, List.length_nil] at hl ⊢
      omega
    · -- lprev chain of the remaining list: unchanged on all its members
      show chainFrom (lprevOf h2) none (L'' ++ [p]) = true
      have hcongr : chainFrom (lprevOf h2) none (L'' ++ [p]) =
          chainFrom (lprevOf h) none (L'' ++ [p]) := by
        apply chainFrom_congr
        intro y hy
        have hyx : y ≠ x := fun he => hxL' (he ▸ hy)
        simp [hh2, hyx]
      rw [hcongr]
      exact and_true_left hsplit.symm
    · -- lnext chain: new bot p now ends the list
      show chainFrom (lnextOf h2) none (L'' ++ [p]).reverse = true
      have hrev : (L'' ++ [p]).reverse = p :: L''.reverse := by simp
      rw [hrev]
      have hnx : chainFrom (lnextOf h) none (x :: p :: L''.reverse) = true := by
        have hrev2 : (L'' ++ [p] ++ [x]).reverse = x :: p :: L''.reverse := by simp
        rw [← hrev2]
        exact hn
      obtain ⟨_, hrest⟩ := chainFrom_true_cons hnx
      obtain ⟨_, hrest2⟩ := chainFrom_true_cons hrest
      refine chainFrom_cons_true ?_ ?_
      · simp [hh2, hpx]
      · have hcongr : chainFrom (lnextOf h2) (some p) L''.reverse =
            chainFrom (lnextOf h) (some p) L''.reverse := by
          apply chainFrom_congr
          intro y hy
          have hyL : y ∈ L'' := List.mem_reverse.mp hy
          have hyx : y ≠ x := fun he =>
            hxL' (he ▸ List.mem_append_left [p] hyL)
          have hyp : y ≠ p := fun he => by
            have hnd2 := nodup_mid (A := L'') (B := []) hndL'
            exact hnd2.2.2.1 (he ▸ hyL)
          simp [hh2, hyx, hyp]
        rw [hcongr]
        exact hrest2
    · show (h2 x).lnext = none
      simp [hh2, setLprev, setLnext]
    · show (h2 x).lprev = none
      simp [hh2, setLprev]
    · intro y hyx hyL
      have hyp : y ≠ p := fun he => hyL (he ▸ List.mem_concat_self L'' p)
      exact hframe y hyx hyp

/-- The append phase of `FlowRequeue` links `f` in as new `bot` of the
destination, setting `top` as well when the destination was empty, touching
no record other than `f` and the old `bot`. -/
theorem requeueAppend_rep {h : Heap} {q : FlowQueue} {Ld : List FlowId} {f : FlowId}
    (hrep : QueueRep h q Ld) (hfL : f ∉ Ld) :
    QueueRep (requeueAppend h q f).1 (requeueAppend h q f).2 (Ld ++ [f]) ∧
    (requeueAppend h q f).2.len = q.len + 1 ∧
    (∀ x, x ≠ f → x ∉ Ld → (requeueAppend h q f).1 x = h x) := by
  obtain ⟨ht, hb, hl, hnd, hp, hn⟩ := hrep
  rcases List.eq_nil_or_concat Ld with hLd | ⟨Ld'', b, hLd⟩
  · -- empty destination: f becomes both top and bot
    subst hLd
    have hb0 : q.bot = none := by simpa using hb
    have ht0 : q.top = none := by simpa using ht
    have hA : requeueAppend h q f =
        (setLnext (setLprev h f none) f none,
          { q with top := some f, bot := some f, len := q.len + 1 }) := by
      simp only [requeueAppend, hb0, setLprev, if_pos rfl]
      simp [ht0, setLprev]
    rw [hA]
    refine ⟨⟨rfl, rfl, by simpa using hl, by simp, ?_, ?_⟩, rfl, ?_⟩
    · show chainFrom (lprevOf (setLnext (setLprev h f none) f none)) none [f] = true
      refine chainFrom_cons_true ?_ rfl
      simp
    · show chainFrom (lnextOf (setLnext (setLprev h f none) f none)) none [f] = true
      refine chainFrom_cons_true ?_ rfl
      simp
    · intro x hxf _
      show setLnext (setLprev h f none) f none x = h x
      rw [setLnext_other _ _ _ _ hxf, setLprev_other _ _ _ _ hxf]
  · -- non-empty destination: link after the old bot b
    rw [List.concat_eq_append] at hLd
    subst hLd
    have hbb : q.bot = some b := by rw [hb, List.getLast?_concat]
    have hbf : b ≠ f := fun he => hfL (he ▸ List.mem_concat_self Ld'' b)
    have hfb : f ≠ b := fun he => hbf he.symm
    have htne : q.top ≠ none := by
      rw [ht]
      cases Ld'' <;> simp
    set h3 := setLnext (setLnext (setLprev h f (some b)) b (some f)) f none with hh3
    have hA : requeueAppend h q f =
        (h3, { q with bot := some f, len := q.len + 1 }) := by
      simp only [requeueAppend, hbb, hh3]
      have hsc : lprevOf (setLprev h f (some b)) f = some b := by simp
      simp only [lprevOf] at hsc
      simp only [hsc, if_neg htne]
    rw [hA]
    have hframe : ∀ x, x ≠ f → x ≠ b → h3 x = h x := by
      intro x hxf hxb
      rw [hh3, setLnext_other _ _ _ _ hxf, setLnext_other _ _ _ _ hxb,
        setLprev_other _ _ _ _ hxf]
    have hnodup : (Ld'' ++ [b] ++ [f]).Nodup := by
      rw [List.nodup_append]
      refine ⟨hnd, by simp, ?_⟩
      intro x hx hx2
      simp only [List.mem_singleton] at hx2
      exact hfL (hx2 ▸ hx)
    refine ⟨⟨?_, ?_, ?_, hnodup, ?_, ?_⟩, rfl, ?_⟩
    · show q.top = (Ld'' ++ [b] ++ [f]).head?
      rw [ht, head?_append_left [f] (by simp)]
    · show some f = (Ld'' ++ [b] ++ [f]).getLast?
      rw [List.getLast?_concat]
    · show q.len + 1 = (Ld'' ++ [b] ++ [f]).length
      simp only [List.length_append, List.length_cons, List.length_nil] at hl ⊢
      omega
    · -- lprev chain: old list unchanged, f points back at b
      show chainFrom (lprevOf h3) none (Ld'' ++ [b] ++ [f]) = true
      refine chainFrom_append_true ?_ ?_
      · have hcongr : chainFrom (lprevOf h3) none (Ld'' ++ [b]) =
            chainFrom (lprevOf h) none (Ld'' ++ [b]) := by
          apply chainFrom_congr
          intro y hy
          have hyf : y ≠ f := fun he => hfL (he ▸ hy)
          simp [hh3, hyf]
        rw [hcongr]
        exact hp
      · rw [lastPtr_concat]
        refine chainFrom_cons_true ?_ rfl
        simp [hh3, hfb]
    · -- lnext chain: f ends the list, b now points down at f
      show chainFrom (lnextOf h3) none (Ld'' ++ [b] ++ [f]).reverse = true
      have hrev : (Ld'' ++ [b] ++ [f]).reverse = f :: b :: Ld''.reverse := by simp
      rw [hrev]
      refine chainFrom_cons_true (by simp [hh3]) (chainFrom_cons_true (by simp [hh3, hbf]) ?_)
      have hcongr : chainFrom (lnextOf h3) (some b) Ld''.reverse =
          chainFrom (lnextOf h) (some b) Ld''.reverse := by
        apply chainFrom_congr
        intro y hy
        have hyL : y ∈ Ld'' := List.mem_reverse.mp hy
        have hyf : y ≠ f := fun he => hfL (he ▸ List.mem_append_left [b] hyL)
        have hyb : y ≠ b := fun he =>
          (nodup_mid (A := Ld'') (B := []) hnd).2.2.1 (he ▸ hyL)
        simp [hh3, hyf, hyb]
      rw [hcongr]
      have hrev2 : (Ld'' ++ [b]).reverse = b :: Ld''.reverse := by simp
      rw [hrev2] at hn
      exact (chainFrom_true_cons hn).2
    · intro x hxf hxL
      have hxb : x ≠ b := fun he => hxL (he ▸ List.mem_concat_self Ld'' b)
      exact hframe x hxf hxb

theorem exists_head_mem {L : List FlowId} (hL : L ≠ []) :
    ∃ a, L.head? = some a ∧ a ∈ L := by
  cases L with
  | nil => exact absurd rfl hL
  | cons a L' => exact ⟨a, rfl, List.mem_cons_self a L'⟩

/-- The unlink phase of `FlowRequeue` removes `f` from any position of the
source list: splicing its neighbors together when it has them, moving the
queue's `top`/`bot` when `f` sat at an end, decrementing `len`, and clearing
`f`'s own link fields; no record beyond `f` and its neighbors is touched. -/
theorem requeueUnlink_rep {h : Heap} {q : FlowQueue} {A B : List FlowId} {f : FlowId}
    (hrep : QueueRep h q (A ++ f :: B)) :
    QueueRep (requeueUnlink h q f).1 (requeueUnlink h q f).2 (A ++ B) ∧
    ((requeueUnlink h q f).1 f).lnext = none ∧
    ((requeueUnlink h q f).1 f).lprev = none ∧
    (requeueUnlink h q f).2.len = q.len - 1 ∧
    (∀ x, x ≠ f → x ∉ A → x ∉ B → (requeueUnlink h q f).1 x = h x) := by
  obtain ⟨ht, hb, hl, hnd, hp, hn⟩ := hrep
  obtain ⟨hndA, hndB, hfA, hfB, hdisjAB⟩ := nodup_mid hnd
  -- decompose the two link chains around f
  have hpsplit := chainFrom_append (lprevOf h) A (f :: B) none
  rw [hp] at hpsplit
  have hAprev : chainFrom (lprevOf h) none A = true := and_true_left hpsplit.symm
  obtain ⟨hfprev, hBprev⟩ := chainFrom_true_cons (and_true_right hpsplit.symm)
  have hrevL : (A ++ f :: B).reverse = B.reverse ++ f :: A.reverse := by simp
  rw [hrevL] at hn
  have hnsplit := chainFrom_append (lnextOf h) B.reverse (f :: A.reverse) none
  rw [hn] at hnsplit
  have hBnext : chainFrom (lnextOf h) none B.reverse = true := and_true_left hnsplit.symm
  obtain ⟨hfnext0, hAnext⟩ := chainFrom_true_cons (and_true_right hnsplit.symm)
  have hfnext : lnextOf h f = B.head? := by
    rw [hfnext0, lastPtr_none, List.getLast?_reverse]
  rcases List.eq_nil_or_concat A with hA | ⟨A'', aL, hA⟩
  · subst hA
    -- f is the top record
    have htf : q.top = some f := by simpa using ht
    have hfp : (h f).lprev = none := by simpa using hfprev
    cases hBc : B with
    | nil =>
      -- f is the only record
      subst hBc
      have hbf : q.bot = some f := by simpa using hb
      have hfn : (h f).lnext = none := by simpa using hfnext
      have hU : requeueUnlink h q f =
          (setLprev (setLnext h f none) f none,
            { q with top := none, bot := none, len := q.len - 1 }) := by
        simp [requeueUnlink, htf, hfn, hfp, hbf]
      rw [hU]
      refine ⟨⟨rfl, rfl, ?_, by simp, rfl, rfl⟩, ?_, ?_, rfl, ?_⟩
      · show q.len - 1 = ([] ++ [] : List FlowId).length
        simp only [List.length_append, List.length_cons, List.length_nil] at hl ⊢
        omega
      · simp [setLprev, setLnext]
      · simp [setLprev]
      · intro x hxf _ _
        show setLprev (setLnext h f none) f none x = h x
        rw [setLprev_other _ _ _ _ hxf, setLnext_other _ _ _ _ hxf]
    | cons b B'' =>
      -- f is top with a neighbor below: that neighbor becomes top
      subst hBc
      have hfn : (h f).lnext = some b := by simpa using hfnext
      have hbne : q.bot ≠ some f := by
        rw [hb]
        cases hgl : ((b :: B'').getLast?) with
        | none => simp at hgl
        | some bl =>
          have hmem : bl ∈ b :: B'' := List.mem_of_getLast?_eq_some hgl
          have hblf : bl ≠ f := fun he => hfB (he ▸ hmem)
          simp only [List.nil_append, List.getLast?_cons_cons, hgl]
          exact fun he => hblf (by injection he)
      have hbf : b ≠ f := fun he => hfB (he ▸ List.mem_cons_self b B'')
      set h3 := setLprev (setLnext (setLprev h b none) f none) f none with hh3
      have hU : requeueUnlink h q f =
          (h3, { q with top := some b, len := q.len - 1 }) := by
        simp [requeueUnlink, htf, hfn, hfp, hbne, hh3]
      rw [hU]
      have hframe : ∀ x, x ≠ f → x ≠ b → h3 x = h x := by
        intro x hxf hxb
        rw [hh3, setLprev_other _ _ _ _ hxf, setLnext_other _ _ _ _ hxf,
          setLprev_other _ _ _ _ hxb]
      refine ⟨⟨rfl, ?_, ?_, hndB, ?_, ?_⟩, ?_, ?_, rfl, ?_⟩
      · show q.bot = ([] ++ b :: B'').getLast?
        rw [hb]
        simp only [List.nil_append, List.getLast?_cons_cons]
      · show q.len - 1 = ([] ++ b :: B'').length
        simp only [List.length_append, List.length_cons, List.length_nil] at hl ⊢
        omega
      · show chainFrom (lprevOf h3) none ([] ++ b :: B'') = true
        refine chainFrom_cons_true ?_ ?_
        · simp [hh3, hbf]
        · have hcongr : chainFrom (lprevOf h3) (some b) B'' =
              chainFrom (lprevOf h) (some b) B'' := by
            apply chainFrom_congr
            intro y hy
            have hyf : y ≠ f := fun he => hfB (he ▸ List.mem_cons_of_mem b hy)
            have hyb : y ≠ b := fun he => (List.nodup_cons.mp hndB).1 (he ▸ hy)
            simp [hh3, hyf, hyb]
          rw [hcongr]
          exact (chainFrom_true_cons hBprev).2
      · show chainFrom (lnextOf h3) none ([] ++ b :: B'').reverse = true
        have hcongr : chainFrom (lnextOf h3) none ([] ++ b :: B'').reverse =
            chainFrom (lnextOf h) none ([] ++ b :: B'').reverse := by
          apply chainFrom_congr
          intro y hy
          have hyf : y ≠ f := fun he =>
            hfB (he ▸ (by simpa using List.mem_reverse.mp hy))
          simp [hh3, hyf]
        rw [hcongr]
        simpa using hBnext
      · simp [hh3, setLprev, setLnext]
      · simp [hh3, setLprev]
      · intro x hxf _ hxB
        have hxb : x ≠ b := fun he => hxB (he ▸ List.mem_cons_self b B'')
        exact hframe x hxf hxb
  · rw [List.concat_eq_append] at hA
    subst hA
    -- f has a neighbor above: aL, the last element of A
    have hfp : (h f).lprev = some aL := by
      have hfp' : lprevOf h f = some aL := by rw [hfprev, lastPtr_concat]
      exact hfp'
    have hfaL : f ≠ aL := fun he => hfA (he ▸ List.mem_concat_self A'' aL)
    have haLf : aL ≠ f := fun he => hfaL he.symm
    obtain ⟨a0, ha0, ha0mem⟩ := exists_head_mem
      (show A'' ++ [aL] ≠ [] by simp)
    have ha0f : a0 ≠ f := fun he => hfA (he ▸ ha0mem)
    have htne : q.top ≠ some f := by
      rw [ht, head?_append_left (f :: B) (by simp), ha0]
      exact fun he => ha0f (by injection he)
    cases hBc : B with
    | nil =>
      -- f is the bot record: aL becomes bot
      subst hBc
      have hfn : (h f).lnext = none := by simpa using hfnext
      have hbf : q.bot = some f := by
        rw [hb, List.getLast?_append_cons, List.getLast?_singleton]
      set h3 := setLprev (setLnext (setLnext h aL none) f none) f none with hh3
      have hU : requeueUnlink h q f =
          (h3, { q with bot := some aL, len := q.len - 1 }) := by
        simp only [requeueUnlink, hfn, hfp, if_neg htne, hbf, if_pos rfl, hh3]
        have hsc : (setLnext h aL none f).lnext = (h f).lnext := by
          simp [setLnext, hfaL]
        simp only [hsc, hfn]
        rfl
      rw [hU]
      have hframe : ∀ x, x ≠ f → x ≠ aL → h3 x = h x := by
        intro x hxf hxa
        rw [hh3, setLprev_other _ _ _ _ hxf, setLnext_other _ _ _ _ hxf,
          setLnext_other _ _ _ _ hxa]
      refine ⟨⟨?_, ?_, ?_, ?_, ?_, ?_⟩, ?_, ?_, rfl, ?_⟩
      · show q.top = (A'' ++ [aL] ++ []).head?
        rw [ht, head?_append_left (f :: []) (by simp), List.append_nil]
      · show some aL = (A'' ++ [aL] ++ []).getLast?
        rw [List.append_nil, List.getLast?_concat]
      · show q.len - 1 = (A'' ++ [aL] ++ []).length
        simp only [List.length_append, List.length_cons, List.length_nil] at hl ⊢
        omega
      · simpa using hndA
      · show chainFrom (lprevOf h3) none (A'' ++ [aL] ++ []) = true
        rw [List.append_nil]
        have hcongr : chainFrom (lprevOf h3) none (A'' ++ [aL]) =
            chainFrom (lprevOf h) none (A'' ++ [aL]) := by
          apply chainFrom_congr
          intro y hy
          have hyf : y ≠ f := fun he => hfA (he ▸ hy)
          simp [hh3, hyf]
        rw [hcongr]
        exact hAprev
      · show chainFrom (lnextOf h3) none (A'' ++ [aL] ++ []).reverse = true
        have hrev : (A'' ++ [aL] ++ []).reverse = aL :: A''.reverse := by simp
        rw [hrev]
        refine chainFrom_cons_true ?_ ?_
        · simp [hh3, haLf]
        · have hcongr : chainFrom (lnextOf h3) (some aL) A''.reverse =
              chainFrom (lnextOf h) (some aL) A''.reverse := by
            apply chainFrom_congr
            intro y hy
            have hyA : y ∈ A'' := List.mem_reverse.mp hy
            have hyf : y ≠ f := fun he =>
              hfA (he ▸ List.mem_append_left [aL] hyA)
            have hya : y ≠ aL := fun he =>
              (nodup_mid (A := A'') (B := []) hndA).2.2.1 (he ▸ hyA)
            simp [hh3, hyf, hya]
          rw [hcongr]
          have hrevA : (A'' ++ [aL]).reverse = aL :: A''.reverse := by simp
          rw [hrevA] at hAnext
          exact (chainFrom_true_cons hAnext).2
      · simp [hh3, setLprev, setLnext]
      · simp [hh3, setLprev]
      · intro x hxf hxA _
        have hxa : x ≠ aL := fun he => hxA (he ▸ List.mem_concat_self A'' aL)
        exact hframe x hxf hxa
    | cons b B'' =>
      -- f sits strictly between aL and b: splice them together
      subst hBc
      have hfn : (h f).lnext = some b := by simpa using hfnext
      have hbne : q.bot ≠ some f := by
        rw [hb, List.getLast?_append_cons]
        cases hgl : ((b :: B'').getLast?) with
        | none => simp at hgl
        | some bl =>
          have hmem : bl ∈ b :: B'' := List.mem_of_getLast?_eq_some hgl
          have hblf : bl ≠ f := fun he => hfB (he ▸ hmem)
          rw [List.getLast?_cons_cons, hgl]
          exact fun he => hblf (by injection he)
      have hbf : b ≠ f := fun he => hfB (he ▸ List.mem_cons_self b B'')
      have hbaL : b ≠ aL := by
        intro he
        exact hdisjAB aL (List.mem_concat_self A'' aL) (he ▸ List.mem_cons_self b B'')
      set h3 := setLprev (setLnext (setLprev (setLnext h aL (some b)) b (some aL)) f none) f none
        with hh3
      have hU : requeueUnlink h q f = (h3, { q with len := q.len - 1 }) := by
        simp only [requeueUnlink, hfn, hfp, if_neg htne, if_neg hbne, hh3]
        have hsc1 : (setLnext h aL (some b) f).lnext = (h f).lnext := by
          simp [setLnext, hfaL]
        have hsc2 : (setLnext h aL (some b) f).lprev = (h f).lprev := by
          simp [setLnext, hfaL]
        simp only [hsc1, hsc2, hfn, hfp]
      rw [hU]
      have hframe : ∀ x, x ≠ f → x ≠ aL → x ≠ b → h3 x = h x := by
        intro x hxf hxa hxb
        rw [hh3, setLprev_other _ _ _ _ hxf, setLnext_other _ _ _ _ hxf,
          setLprev_other _ _ _ _ hxb, setLnext_other _ _ _ _ hxa]
      have hndAB : (A'' ++ [aL] ++ b :: B'').Nodup := by
        rw [List.nodup_append]
        exact ⟨hndA, hndB, fun x hx hx2 => hdisjAB x hx hx2⟩
      refine ⟨⟨?_, ?_, ?_, hndAB, ?_, ?_⟩, ?_, ?_, rfl, ?_⟩
      · show q.top = (A'' ++ [aL] ++ b :: B'').head?
        rw [ht, head?_append_left (f :: b :: B'') (by simp),
          head?_append_left (b :: B'') (by simp)]
      · show q.bot = (A'' ++ [aL] ++ b :: B'').getLast?
        rw [hb, List.getLast?_append_cons, List.getLast?_append_cons,
          List.getLast?_cons_cons]
      · show q.len - 1 = (A'' ++ [aL] ++ b :: B'').length
        simp only [List.length_append, List.length_cons, List.length_nil] at hl ⊢
        omega
      · -- lprev chain: b now points back at aL
        show chainFrom (lprevOf h3) none (A'' ++ [aL] ++ b :: B'') = true
        refine chainFrom_append_true ?_ ?_
        · have hcongr : chainFrom (lprevOf h3) none (A'' ++ [aL]) =
              chainFrom (lprevOf h) none (A'' ++ [aL]) := by
            apply chainFrom_congr
            intro y hy
            have hyf : y ≠ f := fun he => hfA (he ▸ hy)
            have hyb : y ≠ b := fun he => hdisjAB y hy (he ▸ List.mem_cons_self b B'')
            simp [hh3, hyf, hyb]
          rw [hcongr]
          exact hAprev
        · rw [lastPtr_concat]
          refine chainFrom_cons_true ?_ ?_
          · simp [hh3, hbf]
          · have hcongr : chainFrom (lprevOf h3) (some b) B'' =
                chainFrom (lprevOf h) (some b) B'' := by
              apply chainFrom_congr
              intro y hy
              have hyf : y ≠ f := fun he => hfB (he ▸ List.mem_cons_of_mem b hy)
              have hyb : y ≠ b := fun he => (List.nodup_cons.mp hndB).1 (he ▸ hy)
              simp [hh3, hyf, hyb]
            rw [hcongr]
            exact (chainFrom_true_cons hBprev).2
      · -- lnext chain: aL now points down at b
        show chainFrom (lnextOf h3) none (A'' ++ [aL] ++ b :: B'').reverse = true
        have hrev : (A'' ++ [aL] ++ b :: B'').reverse =
            (b :: B'').reverse ++ (aL :: A''.reverse) := by simp
        rw [hrev]
        refine chainFrom_append_true ?_ ?_
        · have hcongr : chainFrom (lnextOf h3) none (b :: B'').reverse =
              chainFrom (lnextOf h) none (b :: B'').reverse := by
            apply chainFrom_congr
            intro y hy
            have hyB : y ∈ b :: B'' := List.mem_reverse.mp hy
            have hyf : y ≠ f := fun he => hfB (he ▸ hyB)
            have hya : y ≠ aL := fun he =>
              hdisjAB aL (List.mem_concat_self A'' aL) (he ▸ hyB)
            simp [hh3, hyf, hya]
          rw [hcongr]
          exact hBnext
        · have hlast : lastPtr none (b :: B'').reverse = some b := by
            rw [lastPtr_none, List.getLast?_reverse]; rfl
          rw [hlast]
          refine chainFrom_cons_true ?_ ?_
          · simp [hh3, haLf, hbaL.symm]
          · have hcongr : chainFrom (lnextOf h3) (some aL) A''.reverse =
                chainFrom (lnextOf h) (some aL) A''.reverse := by
              apply chainFrom_congr
              intro y hy
              have hyA : y ∈ A'' := List.mem_reverse.mp hy
              have hyf : y ≠ f := fun he =>
                hfA (he ▸ List.mem_append_left [aL] hyA)
              have hya : y ≠ aL := fun he =>
                (nodup_mid (A := A'') (B := []) hndA).2.2.1 (he ▸ hyA)
              simp [hh3, hyf, hya]
            rw [hcongr]
            have hrevA : (A'' ++ [aL]).reverse = aL :: A''.reverse := by simp
            rw [hrevA] at hAnext
            exact (chainFrom_true_cons hAnext).2
      · simp [hh3, setLprev, setLnext]
      · simp [hh3, setLprev]
      · intro x hxf hxA hxB
        have hxa : x ≠ aL := fun he => hxA (he ▸ List.mem_concat_self A'' aL)
        have hxb : x ≠ b := fun he => hxB (he ▸ List.mem_cons_self b B'')
        exact hframe x hxf hxa hxb

/-- World-level specification of `FlowRequeue` between two distinct queues:
`f` leaves the source list (its neighbors spliced), arrives at the tail of
the destination list, the length counters move by one each, and nothing
else — no other queue and no unrelated record — changes. -/
theorem FlowRequeue_aux {w : World} {f : FlowId} {s d : QId} {A B Ld : List FlowId}
    (hsd : s ≠ d)
    (hsrc : QueueRep w.heap (w.queues s) (A ++ f :: B))
    (hdst : QueueRep w.heap (w.queues d) Ld)
    (hdisj : ∀ x ∈ A ++ f :: B, x ∉ Ld) :
    QueueRep (FlowRequeue w f (some s) d).heap
      ((FlowRequeue w f (some s) d).queues s) (A ++ B) ∧
    QueueRep (FlowRequeue w f (some s) d).heap
      ((FlowRequeue w f (some s) d).queues d) (Ld ++ [f]) ∧
    ((FlowRequeue w f (some s) d).queues s).len = (w.queues s).len - 1 ∧
    ((FlowRequeue w f (some s) d).queues d).len = (w.queues d).len + 1 ∧
    (∀ i, i ≠ s → i ≠ d → (FlowRequeue w f (some s) d).queues i = w.queues i) ∧
    (∀ x, x ∉ A ++ f :: B → x ∉ Ld → (FlowRequeue w f (some s) d).heap x = w.heap x) := by
  have hds : d ≠ s := fun he => hsd he.symm
  obtain ⟨hndA, hndB, hfA, hfB, hAB⟩ := nodup_mid hsrc.2.2.2.1
  obtain ⟨hU, hUn, hUp, hUlen, hUframe⟩ := requeueUnlink_rep hsrc
  have hfmem : f ∈ A ++ f :: B := List.mem_append_right A (List.mem_cons_self f B)
  have hfLd : f ∉ Ld := hdisj f hfmem
  have hdst1 : QueueRep (requeueUnlink w.heap (w.queues s) f).1 (w.queues d) Ld := by
    apply QueueRep_congr _ hdst
    intro x hx
    have hxs : x ∉ A ++ f :: B := fun hxm => hdisj x hxm hx
    have hxf : x ≠ f := fun he => hxs (he ▸ hfmem)
    have hxA : x ∉ A := fun hm => hxs (List.mem_append_left _ hm)
    have hxB : x ∉ B := fun hm =>
      hxs (List.mem_append_right _ (List.mem_cons_of_mem f hm))
    exact (hUframe x hxf hxA hxB).symm
  obtain ⟨hP, hPlen, hPframe⟩ := requeueAppend_rep hdst1 hfLd
  -- component equations for the result world
  have hheap : (FlowRequeue w f (some s) d).heap =
      (requeueAppend (requeueUnlink w.heap (w.queues s) f).1 (w.queues d) f).1 := by
    show (requeueAppend (requeueUnlink w.heap (w.queues s) f).1
      (if d = s then (requeueUnlink w.heap (w.queues s) f).2 else w.queues d) f).1 = _
    rw [if_neg hds]
  have hqs : (FlowRequeue w f (some s) d).queues s =
      (requeueUnlink w.heap (w.queues s) f).2 := by
    show (if s = d then _ else
      (if s = s then (requeueUnlink w.heap (w.queues s) f).2 else w.queues s)) = _
    rw [if_neg hsd, if_pos rfl]
  have hqd : (FlowRequeue w f (some s) d).queues d =
      (requeueAppend (requeueUnlink w.heap (w.queues s) f).1
        (if d = s then (requeueUnlink w.heap (w.queues s) f).2 else w.queues d) f).2 := by
    show (if d = d then _ else _) = _
    rw [if_pos rfl]
  rw [if_neg hds] at hqd
  have hmemlift : ∀ x, x ∈ A ++ B → x ∈ A ++ f :: B := by
    intro x hx
    rcases List.mem_append.mp hx with hxa | hxb
    · exact List.mem_append_left _ hxa
    · exact List.mem_append_right _ (List.mem_cons_of_mem f hxb)
  refine ⟨?_, ?_, ?_, ?_, ?_, ?_⟩
  · rw [hheap, hqs]
    apply QueueRep_congr _ hU
    intro x hx
    have hxf : x ≠ f := by
      intro he
      rcases List.mem_append.mp hx with hxa | hxb
      · exact hfA (he ▸ hxa)
      · exact hfB (he ▸ hxb)
    have hxLd : x ∉ Ld := hdisj x (hmemlift x hx)
    exact (hPframe x hxf hxLd).symm
  · rw [hheap, hqd]
    exact hP
  · rw [hqs]
    exact hUlen
  · rw [hqd]
    exact hPlen
  · intro i his hid
    show (if i = d then _ else (if i = s then _ else w.queues i)) = w.queues i
    rw [if_neg hid, if_neg his]
  · intro x hxs hxLd
    have hxf : x ≠ f := fun he => hxs (he ▸ hfmem)
    have hxA : x ∉ A := fun hm => hxs (List.mem_append_left _ hm)
    have hxB : x ∉ B := fun hm =>
      hxs (List.mem_append_right _ (List.mem_cons_of_mem f hm))
    rw [hheap, hPframe x hxf hxLd, hUframe x hxf hxA hxB]

/-- World-level specification of `FlowRequeue` when source and destination
are the same queue: `f` moves to the tail, the length is unchanged. -/
theorem FlowRequeue_same_aux {w : World} {f : FlowId} {s : QId} {A B : List FlowId}
    (hsrc : QueueRep w.heap (w.queues s) (A ++ f :: B)) :
    QueueRep (FlowRequeue w f (some s) s).heap
      ((FlowRequeue w f (some s) s).queues s) ((A ++ B) ++ [f]) ∧
    ((FlowRequeue w f (some s) s).queues s).len = (w.queues s).len ∧
    (∀ i, i ≠ s → (FlowRequeue w f (some s) s).queues i = w.queues i) ∧
    (∀ x, x ∉ A ++ f :: B → (FlowRequeue w f (some s) s).heap x = w.heap x) := by
  obtain ⟨hndA, hndB, hfA, hfB, hAB⟩ := nodup_mid hsrc.2.2.2.1
  obtain ⟨hU, hUn, hUp, hUlen, hUframe⟩ := requeueUnlink_rep hsrc
  have hfmem : f ∈ A ++ f :: B := List.mem_append_right A (List.mem_cons_self f B)
  have hfAB : f ∉ A ++ B := by
    intro hm
    rcases List.mem_append.mp hm with hxa | hxb
    · exact hfA hxa
    · exact hfB hxb
  obtain ⟨hP, hPlen, hPframe⟩ := requeueAppend_rep hU hfAB
  have hheap : (FlowRequeue w f (some s) s).heap =
      (requeueAppend (requeueUnlink w.heap (w.queues s) f).1
        (requeueUnlink w.heap (w.queues s) f).2 f).1 := by
    show (requeueAppend (requeueUnlink w.heap (w.queues s) f).1
      (if s = s then (requeueUnlink w.heap (w.queues s) f).2 else w.queues s) f).1 = _
    rw [if_pos rfl]
  have hqs : (FlowRequeue w f (some s) s).queues s =
      (requeueAppend (requeueUnlink w.heap (w.queues s) f).1
        (requeueUnlink w.heap (w.queues s) f).2 f).2 := by
    show (if s = s then (requeueAppend (requeueUnlink w.heap (w.queues s) f).1
      (if s = s then (requeueUnlink w.heap (w.queues s) f).2 else w.queues s) f).2
      else _) = _
    rw [if_pos rfl, if_pos rfl]
  refine ⟨?_, ?_, ?_, ?_⟩
  · rw [hheap, hqs]
    exact hP
  · rw [hqs, hPlen, hUlen]
    have hlen : (w.queues s).len = (A ++ f :: B).length := hsrc.2.2.1
    rw [hlen]
    simp only [List.length_append, List.length_cons]
    omega
  · intro i his
    show (if i = s then _ else (if i = s then _ else w.queues i)) = w.queues i
    rw [if_neg his, if_neg his]
  · intro x hxs
    have hxf : x ≠ f := fun he => hxs (he ▸ hfmem)
    have hxA : x ∉ A := fun hm => hxs (List.mem_append_left _ hm)
    have hxB : x ∉ B := fun hm =>
      hxs (List.mem_append_right _ (List.mem_cons_of_mem f hm))
    have hxAB : x ∉ A ++ B := by
      intro hm
      rcases List.mem_append.mp hm with hxa | hxb
      · exact hxA hxa
      · exact hxB hxb
    rw [hheap, hPframe x hxf hxAB, hUframe x hxf hxA hxB]

/-- World-level specification of `FlowRequeue` with no source queue (first
insertion): `f` is appended at the destination tail. -/
theorem FlowRequeue_none_aux {w : World} {f : FlowId} {d : QId} {Ld : List FlowId}
    (hdst : QueueRep w.heap (w.queues d) Ld) (hfLd : f ∉ Ld) :
    QueueRep (FlowRequeue w f none d).heap
      ((FlowRequeue w f none d).queues d) (Ld ++ [f]) ∧
    ((FlowRequeue w f none d).queues d).len = (w.queues d).len + 1 ∧
    (∀ i, i ≠ d → (FlowRequeue w f none d).queues i = w.queues i) ∧
    (∀ x, x ≠ f → x ∉ Ld → (FlowRequeue w f none d).heap x = w.heap x) := by
  obtain ⟨hP, hPlen, hPframe⟩ := requeueAppend_rep hdst hfLd
  have hqd : (FlowRequeue w f none d).queues d =
      (requeueAppend w.heap (w.queues d) f).2 := by
    show (if d = d then _ else _) = _
    rw [if_pos rfl]
  have hheap : (FlowRequeue w f none d).heap =
      (requeueAppend w.heap (w.queues d) f).1 := rfl
  refine ⟨?_, ?_, ?_, ?_⟩
  · rw [hheap, hqd]; exact hP
  · rw [hqd]; exact hPlen
  · intro i hid
    show (if i = d then _ else w.queues i) = w.queues i
    rw [if_neg hid]
  · intro x hxf hxLd
    rw [hheap, hPframe x hxf hxLd]

theorem enqueueAll_rep : ∀ (rs : List FlowId) {h : Heap} {q : FlowQueue} {L : List FlowId},
    QueueRep h q L → rs.Nodup → (∀ r ∈ rs, r ∉ L) →
    (∀ r ∈ rs, (h r).lnext = none ∧ (h r).lprev = none) →
    QueueRep (enqueueAll h q rs).1 (enqueueAll h q rs).2 (rs.reverse ++ L)
  | [], h, q, L, hrep, _, _, _ => by simpa using hrep
  | r :: rs, h, q, L, hrep, hnd, hnotin, hclean => by
    have hrL : r ∉ L := hnotin r (List.mem_cons_self r rs)
    obtain ⟨hrep1, hframe⟩ := FlowEnqueue_rep hrep hrL
      (hclean r (List.mem_cons_self r rs)).1 (hclean r (List.mem_cons_self r rs)).2
    have hndtail := List.nodup_cons.mp hnd
    have hrec := enqueueAll_rep rs hrep1 hndtail.2
      (by
        intro r' hr'
        intro hmem
        rcases List.mem_cons.mp hmem with he | hmemL
        · exact hndtail.1 (he ▸ hr')
        · exact hnotin r' (List.mem_cons_of_mem r hr') hmemL)
      (by
        intro r' hr'
        have hr'r : r' ≠ r := fun he => hndtail.1 (he ▸ hr')
        have hr'L : r' ∉ L := hnotin r' (List.mem_cons_of_mem r hr')
        rw [hframe r' hr'r hr'L]
        exact hclean r' (List.mem_cons_of_mem r hr'))
    have hlist : rs.reverse ++ (r :: L) = (r :: rs).reverse ++ L := by
      simp
    rw [hlist] at hrec
    exact hrec

theorem dequeueN_rep : ∀ (n : Nat) (L : List FlowId) {h : Heap} {q : FlowQueue},
    n = L.length → QueueRep h q L →
    (dequeueN h q n).1 = L.reverse.map some ∧
    QueueRep (dequeueN h q n).2.1 (dequeueN h q n).2.2 []
  | 0, L, h, q, hn, hrep => by
    have hL : L = [] := by
      cases L with
      | nil => rfl
      | cons a L' => simp at hn
    subst hL
    exact ⟨rfl, hrep⟩
  | n + 1, L, h, q, hn, hrep => by
    rcases List.eq_nil_or_concat L with hL | ⟨L', x, hL⟩
    · subst hL; simp at hn
    · rw [List.concat_eq_append] at hL
      subst hL
      obtain ⟨hret, hrep', _, _, _, _⟩ := FlowDequeue_rep_concat hrep
      have hn' : n = L'.length := by
        simp only [List.length_append, List.length_cons, List.length_nil] at hn
        omega
      have ih := dequeueN_rep n L' hn' hrep'
      refine ⟨?_, ih.2⟩
      show (FlowDequeue h q).1 ::
        (dequeueN (FlowDequeue h q).2.1 (FlowDequeue h q).2.2 n).1 =
        (L' ++ [x]).reverse.map some
      rw [hret, ih.1]
      simp

/-- A list whose reversed form is `chainFrom`-linked to NULL is recovered
exactly by walking `link` from its head, with any fuel covering its length:
the traversal genuinely ends at NULL rather than by fuel exhaustion. -/
theorem walk_eq : ∀ (L : List FlowId) (link : FlowId → Option FlowId) (m : Nat),
    L.length ≤ m → chainFrom link none L.reverse = true → walk link m L.head? = L
  | [], _, m, _, _ => by cases m <;> rfl
  | x :: L', link, m, hm, hch => by
    obtain ⟨m', rfl⟩ : ∃ m', m = m' + 1 := by
      cases m with
      | zero => simp at hm
      | succ k => exact ⟨k, rfl⟩
    have hm' : L'.length ≤ m' := by
      simp only [List.length_cons] at hm
      omega
    have hrev : (x :: L').reverse = L'.reverse ++ [x] := by simp
    rw [hrev] at hch
    have hsplit := chainFrom_append link L'.reverse [x] none
    rw [hch] at hsplit
    have hch' : chainFrom link none L'.reverse = true := and_true_left hsplit.symm
    have hx : link x = lastPtr none L'.reverse := by
      have hr := and_true_right hsplit.symm
      simpa [chainFrom] using hr
    have hx' : link x = L'.head? := by
      rw [hx, lastPtr_none, List.getLast?_reverse]
    show x :: walk link m' (link x) = x :: L'
    rw [hx', walk_eq L' link m' hm' hch']

/-- A queue representing some member list satisfies the invariants. -/
theorem QueueRep_inv {h : Heap} {q : FlowQueue} {L : List FlowId}
    (hrep : QueueRep h q L) : QueueInv h q := by
  obtain ⟨ht, hb, hl, hnd, hp, hn⟩ := hrep
  have hwalkF : walk (lnextOf h) (L.length + 1) L.head? = L :=
    walk_eq L (lnextOf h) (L.length + 1) (by omega) hn
  have hwalkB : walk (lprevOf h) (L.reverse.length + 1) L.reverse.head? = L.reverse := by
    apply walk_eq
    · omega
    · simpa using hp
  refine ⟨?_, ?_, ?_, ?_, ?_, ?_⟩
  · rw [ht, hb]
    cases L with
    | nil => simp
    | cons a L' =>
      simp only [List.head?_cons]
      constructor
      · intro hc; exact absurd hc (by simp)
      · intro hc
        rw [List.getLast?_eq_none_iff] at hc
        exact absurd hc (by simp)
  · rw [ht, hl]
    cases L <;> simp
  · intro t htt
    rw [ht] at htt
    cases L with
    | nil => simp at htt
    | cons a L' =>
      simp only [List.head?_cons, Option.some.injEq] at htt
      subst htt
      exact (chainFrom_true_cons hp).1
  · intro b hbb
    rw [hb] at hbb
    obtain ⟨L'', hL⟩ := List.getLast?_eq_some_iff.mp hbb
    subst hL
    have hrev : (L'' ++ [b]).reverse = b :: L''.reverse := by simp
    rw [hrev] at hn
    exact (chainFrom_true_cons hn).1
  · rw [ht, hl, hwalkF]
  · rw [hb, hl]
    have hbr : L.getLast? = L.reverse.head? := by simp
    have hlr : L.length = L.reverse.length := by simp
    rw [hbr, hlr, hwalkB]

/-- In a represented queue, the record ending list segment `A` and the one
starting list segment `B` are directly linked to each other. -/
theorem QueueRep_adjacent {h : Heap} {q : FlowQueue} {A B : List FlowId} {aL b : FlowId}
    (hrep : QueueRep h q (A ++ B)) (hA : A.getLast? = some aL) (hB : B.head? = some b) :
    lnextOf h aL = some b ∧ lprevOf h b = some aL := by
  obtain ⟨ht, hbq, hl, hnd, hp, hn⟩ := hrep
  obtain ⟨A'', hA'⟩ := List.getLast?_eq_some_iff.mp hA
  subst hA'
  obtain ⟨B', hB'⟩ : ∃ B', B = b :: B' := by
    cases B with
    | nil => simp at hB
    | cons x B' =>
      simp only [List.head?_cons, Option.some.injEq] at hB
      exact ⟨B', by rw [hB]⟩
  subst hB'
  constructor
  · have hrev : ((A'' ++ [aL]) ++ b :: B').reverse =
        (b :: B').reverse ++ (aL :: A''.reverse) := by simp
    rw [hrev] at hn
    have hsplit := chainFrom_append (lnextOf h) (b :: B').reverse (aL :: A''.reverse) none
    rw [hn] at hsplit
    have hr := and_true_right hsplit.symm
    have := (chainFrom_true_cons hr).1
    rw [this, lastPtr_none, List.getLast?_reverse]
    rfl
  · have hsplit := chainFrom_append (lprevOf h) (A'' ++ [aL]) (b :: B') none
    rw [hp] at hsplit
    have hr := and_true_right hsplit.symm
    have := (chainFrom_true_cons hr).1
    rw [this, lastPtr_concat]

/-- C3: Transfer lock discipline.  In every `FlowRequeue` call: across two
distinct queues, the source lock (when acquired by the call itself, i.e.
when `need_srclock == 1`) is released before the destination lock is
acquired, so the call never holds both locks at once; with source and
destination the same queue, the lock is acquired at most once; and the final
step releases the destination lock unconditionally — exactly one release of
the destination lock per call, on every path. -/
theorem flowRequeue_lock_discipline (s d : QId) (need : Nat) :
    (s ≠ d →
      bothHeldDuring [] s d (FlowRequeueLocks (some s) d need) = false ∧
      (need = 1 → FlowRequeueLocks (some s) d need =
        [LockEvent.acq s, LockEvent.rel s, LockEvent.acq d, LockEvent.rel d])) ∧
    ((FlowRequeueLocks (some d) d need).count (LockEvent.acq d) ≤ 1) ∧
    (∀ srcq : Option QId, (FlowRequeueLocks srcq d need).count (LockEvent.rel d) = 1) := by
  refine ⟨?_, ?_, ?_⟩
  · intro hsd
    have hds : d ≠ s := fun he => hsd he.symm
    by_cases hn : need = 1
    · have htr : FlowRequeueLocks (some s) d need =
          [LockEvent.acq s, LockEvent.rel s, LockEvent.acq d, LockEvent.rel d] := by
        simp [FlowRequeueLocks, hn, hsd]
      refine ⟨?_, fun _ => htr⟩
      rw [htr]
      simp [bothHeldDuring, updHeld, hsd, hds, List.erase_cons]
    · refine ⟨?_, fun h1 => absurd h1 hn⟩
      have htr : FlowRequeueLocks (some s) d need =
          [LockEvent.acq d, LockEvent.rel d] := by
        simp [FlowRequeueLocks, hn, hsd]
      rw [htr]
      simp [bothHeldDuring, updHeld, hsd, hds, List.erase_cons]
  · by_cases hn : need = 1
    · have htr : FlowRequeueLocks (some d) d need = [LockEvent.acq d, LockEvent.rel d] := by
        simp [FlowRequeueLocks, hn]
      rw [htr]
      simp [List.count_cons]
    · have htr : FlowRequeueLocks (some d) d need = [LockEvent.rel d] := by
        simp [FlowRequeueLocks, hn]
      rw [htr]
      simp
  · intro srcq
    cases srcq with
    | none =>
      have htr : FlowRequeueLocks none d need = [LockEvent.acq d, LockEvent.rel d] := by
        simp [FlowRequeueLocks]
      rw [htr]
      simp [List.count_cons]
    | some s' =>
      by_cases hs : s' = d
      · subst hs
        by_cases hn : need = 1
        · have htr : FlowRequeueLocks (some s') s' need =
              [LockEvent.acq s', LockEvent.rel s'] := by
            simp [FlowRequeueLocks, hn]
          rw [htr]
          simp [List.count_cons]
        · have htr : FlowRequeueLocks (some s') s' need = [LockEvent.rel s'] := by
            simp [FlowRequeueLocks, hn]
          rw [htr]
          simp
      · by_cases hn : need = 1
        · have htr : FlowRequeueLocks (some s') d need =
              [LockEvent.acq s', LockEvent.rel s', LockEvent.acq d, LockEvent.rel d] := by
            simp [FlowRequeueLocks, hn, hs]
          rw [htr]
          simp [List.count_cons, hs]
        · have htr : FlowRequeueLocks (some s') d need =
              [LockEvent.acq d, LockEvent.rel d] := by
            simp [FlowRequeueLocks, hn, hs]
          rw [htr]
          simp [List.count_cons]

/-- C6: Poll-remove postcondition.  On a queue representing `L`: when `bot`
is unset `FlowDequeue` returns NULL at once and changes nothing — and its
mutex trace is lock-then-unlock with no wait on the condition variable;
otherwise it removes and returns the record at `bot` (the oldest), clears
the returned record's link fields, and decrements `len` by one.  The empty
result is the distinguished value `none` of the `Option` result, not a
failure value. -/
theorem flowDequeue_postcondition (i : QId) (h : Heap) (q : FlowQueue) (L : List FlowId)
    (hrep : QueueRep h q L) :
    (q.bot = none → FlowDequeue h q = (none, h, q)) ∧
    (∀ L' x, L = L' ++ [x] →
      q.bot = some x ∧
      (FlowDequeue h q).1 = some x ∧
      ((FlowDequeue h q).2.1 x).lnext = none ∧
      ((FlowDequeue h q).2.1 x).lprev = none ∧
      (FlowDequeue h q).2.2.len = q.len - 1) ∧
    FlowDequeueLocks i q = [LockEvent.acq i, LockEvent.rel i] ∧
    LockEvent.wait i ∉ FlowDequeueLocks i q := by
  refine ⟨?_, ?_, ?_, ?_⟩
  · intro hb0
    have hL : L = [] := by
      have hgl := hrep.2.1
      rw [hb0] at hgl
      exact List.getLast?_eq_none_iff.mp hgl.symm
    subst hL
    exact FlowDequeue_rep_nil hrep
  · intro L' x hL
    subst hL
    have hbot : q.bot = some x := by rw [hrep.2.1, List.getLast?_concat]
    obtain ⟨hret, _, hn, hp, hlen, _⟩ := FlowDequeue_rep_concat hrep
    exact ⟨hbot, hret, hn, hp, hlen⟩
  · cases hq : q.bot <;> simp [FlowDequeueLocks, hq]
  · cases hq : q.bot <;> simp [FlowDequeueLocks, hq]

/-- C7: Create never returns a recoverable failure.  `FlowQueueNew` either
hits a failed allocation, in which case the process exits fatally, or
returns a fully zeroed queue (`top`, `bot`, `len`, `dbg_maxlen` all
unset/zero) with its mutex and condition variable initialized; there is no
path returning NULL or an uninitialized queue. -/
theorem flowQueueNew_no_recoverable_failure (alloc : Option FlowQueue) :
    (FlowQueueNew alloc = NewResult.fatalExit ∧ alloc = none) ∨
    (∃ q2, FlowQueueNew alloc = NewResult.ok q2 ∧ q2.top = none ∧ q2.bot = none ∧
      q2.len = 0 ∧ q2.dbg_maxlen = 0 ∧ q2.mutexInit = true ∧ q2.condInit = true) := by
  cases alloc with
  | none => exact Or.inl ⟨rfl, rfl⟩
  | some q =>
    exact Or.inr ⟨({ top := none, bot := none, len := 0, dbg_maxlen := 0,
                     mutexInit := true, condInit := true } : FlowQueue),
      rfl, rfl, rfl, rfl, rfl, rfl, rfl⟩

/-- C8: Destroy frame condition.  `FlowQueueDestroy` releases only the mutex
and condition-variable resources; `top`, `bot`, `len`, the diagnostic
counter, and the link fields of every record are left untouched. -/
theorem flowQueueDestroy_frame (h : Heap) (q : FlowQueue) :
    (FlowQueueDestroy h q).1 = h ∧
    (FlowQueueDestroy h q).2.top = q.top ∧
    (FlowQueueDestroy h q).2.bot = q.bot ∧
    (FlowQueueDestroy h q).2.len = q.len ∧
    (FlowQueueDestroy h q).2.dbg_maxlen = q.dbg_maxlen ∧
    (FlowQueueDestroy h q).2.mutexInit = false ∧
    (FlowQueueDestroy h q).2.condInit = false ∧
    (∀ x, ((FlowQueueDestroy h q).1 x).lnext = (h x).lnext ∧
      ((FlowQueueDestroy h q).1 x).lprev = (h x).lprev) :=
  ⟨rfl, rfl, rfl, rfl, rfl, rfl, rfl, fun _ => ⟨rfl, rfl⟩⟩

/-- C9: Packet-source outcome set.  Every `ReceiveErfFile` call produces
exactly one of: a frame delivered with `TM_ECODE_OK`, the packet length,
capture timestamp and datalink set; a failure with `EngineStop()` raised
(short header or payload read — end of stream or read error); or a failure
without engine stop (unimplemented record type).  No other return code —
in particular never `TM_ECODE_DONE` — reaches the pipeline. -/
theorem receiveErfFile_outcomes (inp : ErfInput) :
    (ReceiveErfFile inp).ecode ≠ TmEcode.done ∧
    (((ReceiveErfFile inp).ecode = TmEcode.ok ∧
      (∃ n, (ReceiveErfFile inp).pktLen = some n) ∧
      (∃ t, (ReceiveErfFile inp).pktTs = some t) ∧
      (ReceiveErfFile inp).datalinkSet = true) ∨
     ((ReceiveErfFile inp).ecode = TmEcode.failed ∧
      (ReceiveErfFile inp).engineStop = true) ∨
     ((ReceiveErfFile inp).ecode = TmEcode.failed ∧
      (ReceiveErfFile inp).engineStop = false)) := by
  obtain ⟨hdr, pok⟩ := inp
  cases hdr with
  | none =>
    exact ⟨by simp [ReceiveErfFile], Or.inr (Or.inl ⟨rfl, rfl⟩)⟩
  | some dr =>
    cases pok with
    | false =>
      have hre : ReceiveErfFile ⟨some dr, false⟩ =
          { ecode := TmEcode.failed, engineStop := true, pktLen := none,
            pktTs := none, datalinkSet := false } := by
        simp [ReceiveErfFile]
      rw [hre]
      exact ⟨by simp, Or.inr (Or.inl ⟨rfl, rfl⟩)⟩
    | true =>
      by_cases htyp : dr.type = DAG_TYPE_ETH
      · have hre : ReceiveErfFile ⟨some dr, true⟩ =
            { ecode := TmEcode.ok, engineStop := false,
              pktLen := some ((ntohs dr.wlen : Int) - 4),
              pktTs := some (erfTimeval dr.ts), datalinkSet := true } := by
          simp [ReceiveErfFile, htyp]
        rw [hre]
        exact ⟨by simp, Or.inl ⟨rfl, ⟨(ntohs dr.wlen : Int) - 4, rfl⟩,
          ⟨erfTimeval dr.ts, rfl⟩, rfl⟩⟩
      · have hre : ReceiveErfFile ⟨some dr, true⟩ =
            { ecode := TmEcode.failed, engineStop := false, pktLen := none,
              pktTs := none, datalinkSet := false } := by
          simp [ReceiveErfFile, htyp]
        rw [hre]
        exact ⟨by simp, Or.inr (Or.inr ⟨rfl, rfl⟩)⟩

/-- C10: ERF timestamp conversion bound.  For every 64-bit ERF timestamp,
the microseconds field produced by the conversion — fractional part times
1000000, plus the rounding constant 2^31, shifted right 32, with a carry
into the seconds when 1000000 is reached — lies in [0, 1000000). -/
theorem erfTimeval_usec_bound (ts : Nat) (hts : ts < 2 ^ 64) :
    (erfTimeval ts).tv_usec < 1000000 := by
  have hmask : ts &&& 0xffffffff = ts % 2 ^ 32 := by
    have hm := Nat.and_pow_two_sub_one_eq_mod ts 32
    norm_num at hm ⊢
    exact hm
  have p32 : (2 : Nat) ^ 32 = 4294967296 := by norm_num
  have p64 : (2 : Nat) ^ 64 = 18446744073709551616 := by norm_num
  have hfrac : ts % 4294967296 < 4294967296 := Nat.mod_lt _ (by norm_num)
  have hlo : ts % 4294967296 * 1000000 % 18446744073709551616 =
      ts % 4294967296 * 1000000 := Nat.mod_eq_of_lt (by omega)
  have hlo2 : (ts % 4294967296 * 1000000 + 2147483648) % 18446744073709551616 =
      ts % 4294967296 * 1000000 + 2147483648 := Nat.mod_eq_of_lt (by omega)
  simp only [erfTimeval, hmask, Nat.shiftRight_eq_div_pow, p32, p64]
  rw [hlo, hlo2]
  split
  · dsimp only
    omega
  · dsimp only
    omega

/-- C1: Transfer postcondition.  For a record `f` anywhere in the source
queue (member list `A ++ f :: B`) and any distinct destination queue
(member list `Ld`), `FlowRequeue` unlinks `f` from the source — the source
afterwards represents `A ++ B`, so its `top`/`bot` moved when `f` sat at an
end and otherwise `f`'s two neighbors are spliced directly together — the
source length drops by one, and `f` is appended at the destination's `bot`,
which also becomes `top` when the destination was empty, with the
destination length up by one. -/
theorem flowRequeue_transfer_postcondition
    (w : World) (f : FlowId) (s d : QId) (A B Ld : List FlowId)
    (hsd : s ≠ d)
    (hsrc : QueueRep w.heap (w.queues s) (A ++ f :: B))
    (hdst : QueueRep w.heap (w.queues d) Ld)
    (hdisj : ∀ x ∈ A ++ f :: B, x ∉ Ld) :
    QueueRep (FlowRequeue w f (some s) d).heap
      ((FlowRequeue w f (some s) d).queues s) (A ++ B) ∧
    QueueRep (FlowRequeue w f (some s) d).heap
      ((FlowRequeue w f (some s) d).queues d) (Ld ++ [f]) ∧
    ((FlowRequeue w f (some s) d).queues s).len = (w.queues s).len - 1 ∧
    ((FlowRequeue w f (some s) d).queues d).len = (w.queues d).len + 1 ∧
    ((FlowRequeue w f (some s) d).queues d).bot = some f ∧
    (Ld = [] → ((FlowRequeue w f (some s) d).queues d).top = some f) ∧
    (∀ aL b, A.getLast? = some aL → B.head? = some b →
      lnextOf (FlowRequeue w f (some s) d).heap aL = some b ∧
      lprevOf (FlowRequeue w f (some s) d).heap b = some aL) := by
  obtain ⟨h1, h2, h3, h4, _, h6⟩ := FlowRequeue_aux hsd hsrc hdst hdisj
  refine ⟨h1, h2, h3, h4, ?_, ?_, ?_⟩
  · rw [h2.2.1, List.getLast?_concat]
  · intro hLd
    subst hLd
    rw [h2.1]
    rfl
  · intro aL b haL hb
    exact QueueRep_adjacent h1 haL hb

/-- C2: FIFO law.  Inserting distinct, unqueued records `rs` in order into
an initially empty queue and then polling `rs.length` times returns exactly
`rs`, oldest first, and leaves the queue with `len = 0` and `top`/`bot`
unset. -/
theorem flowQueue_fifo_law (h : Heap) (q : FlowQueue) (rs : List FlowId)
    (htop : q.top = none) (hbot : q.bot = none) (hlen : q.len = 0)
    (hnd : rs.Nodup)
    (hclean : ∀ r ∈ rs, (h r).lnext = none ∧ (h r).lprev = none) :
    (dequeueN (enqueueAll h q rs).1 (enqueueAll h q rs).2 rs.length).1 =
      rs.map some ∧
    (dequeueN (enqueueAll h q rs).1 (enqueueAll h q rs).2 rs.length).2.2.len = 0 ∧
    (dequeueN (enqueueAll h q rs).1 (enqueueAll h q rs).2 rs.length).2.2.top = none ∧
    (dequeueN (enqueueAll h q rs).1 (enqueueAll h q rs).2 rs.length).2.2.bot = none := by
  have hrep0 : QueueRep h q [] := by
    refine ⟨by simpa using htop, by simpa using hbot, by simpa using hlen, by simp, rfl, rfl⟩
  have hrep1 := enqueueAll_rep rs hrep0 hnd (by intro r _ hm; simp at hm) hclean
  rw [List.append_nil] at hrep1
  have hlen1 : rs.length = rs.reverse.length := by simp
  obtain ⟨houts, hfin⟩ := dequeueN_rep rs.length rs.reverse hlen1 hrep1
  refine ⟨?_, ?_, ?_, ?_⟩
  · rw [houts]
    simp
  · have hl := hfin.2.2.1
    simpa using hl
  · have ht := hfin.1
    simpa using ht
  · have hb := hfin.2.1
    simpa using hb

/-- C4: Round trip.  For `f` a member of source queue `s` and a distinct
queue `d`, `FlowRequeue(f, s, d)` followed by `FlowRequeue(f, d, s)` leaves
`f` a member of `s` (now at its tail) and not of `d` or any other queue,
with both length counters back at their original values. -/
theorem flowRequeue_round_trip
    (w : World) (f : FlowId) (s d : QId) (A B Ld : List FlowId)
    (hsd : s ≠ d)
    (hsrc : QueueRep w.heap (w.queues s) (A ++ f :: B))
    (hdst : QueueRep w.heap (w.queues d) Ld)
    (hdisj : ∀ x ∈ A ++ f :: B, x ∉ Ld) :
    QueueRep (FlowRequeue (FlowRequeue w f (some s) d) f (some d) s).heap
      ((FlowRequeue (FlowRequeue w f (some s) d) f (some d) s).queues s)
      ((A ++ B) ++ [f]) ∧
    f ∈ (A ++ B) ++ [f] ∧
    QueueRep (FlowRequeue (FlowRequeue w f (some s) d) f (some d) s).heap
      ((FlowRequeue (FlowRequeue w f (some s) d) f (some d) s).queues d) Ld ∧
    f ∉ Ld ∧
    ((FlowRequeue (FlowRequeue w f (some s) d) f (some d) s).queues s).len =
      (w.queues s).len ∧
    ((FlowRequeue (FlowRequeue w f (some s) d) f (some d) s).queues d).len =
      (w.queues d).len ∧
    (∀ i, i ≠ s → i ≠ d →
      (FlowRequeue (FlowRequeue w f (some s) d) f (some d) s).queues i =
      w.queues i) := by
  have hds : d ≠ s := fun he => hsd he.symm
  obtain ⟨hndA, hndB, hfA, hfB, hAB⟩ := nodup_mid hsrc.2.2.2.1
  have hfmem : f ∈ A ++ f :: B := List.mem_append_right A (List.mem_cons_self f B)
  have hfLd : f ∉ Ld := hdisj f hfmem
  have hfAB : f ∉ A ++ B := by
    intro hm
    rcases List.mem_append.mp hm with hxa | hxb
    · exact hfA hxa
    · exact hfB hxb
  have hmemlift : ∀ x, x ∈ A ++ B → x ∈ A ++ f :: B := by
    intro x hx
    rcases List.mem_append.mp hx with hxa | hxb
    · exact List.mem_append_left _ hxa
    · exact List.mem_append_right _ (List.mem_cons_of_mem f hxb)
  obtain ⟨s1rep, d1rep, s1len, d1len, q1frame, h1frame⟩ :=
    FlowRequeue_aux hsd hsrc hdst hdisj
  -- second transfer: source is d (list Ld ++ f :: []), destination is s
  have hdisj2 : ∀ x ∈ Ld ++ f :: [], x ∉ A ++ B := by
    intro x hx hmem
    rcases List.mem_append.mp hx with hxL | hxf
    · exact hdisj x (hmemlift x hmem) hxL
    · have hxeq : x = f := by simpa using hxf
      exact hfAB (hxeq ▸ hmem)
  obtain ⟨d2rep, s2rep, d2len, s2len, q2frame, h2frame⟩ :=
    FlowRequeue_aux hds d1rep s1rep hdisj2
  rw [List.append_nil] at d2rep
  refine ⟨s2rep, ?_, d2rep, hfLd, ?_, ?_, ?_⟩
  · exact List.mem_concat_self (A ++ B) f
  · rw [s2len, s1len]
    have hl := hsrc.2.2.1
    simp only [List.length_append, List.length_cons] at hl
    omega
  · rw [d2len, d1len]
    omega
  · intro i his hid
    rw [q2frame i hid his, q1frame i his hid]

/-- C5: Structural invariant preservation.  `FlowEnqueue` (on an unqueued
record), `FlowDequeue`, and `FlowRequeue` (record a member of the source;
destination distinct and disjoint, or the same queue), applied to queues
satisfying the representation invariant, leave queues in which `top` is
unset iff `bot` is unset iff `len = 0`, the end records have their outward
links unset, and `len` equals the number of records reachable from `top`
along `lnext` and from `bot` along `lprev`. -/
theorem flowQueue_ops_preserve_invariants :
    (∀ (h : Heap) (q : FlowQueue) (L : List FlowId) (f : FlowId),
      QueueRep h q L → f ∉ L → (h f).lnext = none → (h f).lprev = none →
      QueueInv (FlowEnqueue h q f).1 (FlowEnqueue h q f).2) ∧
    (∀ (h : Heap) (q : FlowQueue) (L : List FlowId),
      QueueRep h q L → QueueInv (FlowDequeue h q).2.1 (FlowDequeue h q).2.2) ∧
    (∀ (w : World) (f : FlowId) (s d : QId) (A B Ld : List FlowId),
      s ≠ d → QueueRep w.heap (w.queues s) (A ++ f :: B) →
      QueueRep w.heap (w.queues d) Ld → (∀ x ∈ A ++ f :: B, x ∉ Ld) →
      QueueInv (FlowRequeue w f (some s) d).heap
        ((FlowRequeue w f (some s) d).queues s) ∧
      QueueInv (FlowRequeue w f (some s) d).heap
        ((FlowRequeue w f (some s) d).queues d)) ∧
    (∀ (w : World) (f : FlowId) (s : QId) (A B : List FlowId),
      QueueRep w.heap (w.queues s) (A ++ f :: B) →
      QueueInv (FlowRequeue w f (some s) s).heap
        ((FlowRequeue w f (some s) s).queues s)) := by
  refine ⟨?_, ?_, ?_, ?_⟩
  · intro h q L f hrep hfL hfn hfp
    exact QueueRep_inv (FlowEnqueue_rep hrep hfL hfn hfp).1
  · intro h q L hrep
    rcases List.eq_nil_or_concat L with hL | ⟨L', x, hL⟩
    · subst hL
      rw [FlowDequeue_rep_nil hrep]
      exact QueueRep_inv hrep
    · rw [List.concat_eq_append] at hL
      subst hL
      exact QueueRep_inv (FlowDequeue_rep_concat hrep).2.1
  · intro w f s d A B Ld hsd hsrc hdst hdisj
    obtain ⟨h1, h2, _, _, _, _⟩ := FlowRequeue_aux hsd hsrc hdst hdisj
    exact ⟨QueueRep_inv h1, QueueRep_inv h2⟩
  · intro w f s A B hsrc
    exact QueueRep_inv (FlowRequeue_same_aux hsrc).1

/-- Witness for C1: transferring record 2 out of the middle of queue 0 into
the empty queue 1. -/
theorem flowRequeue_transfer_postcondition_witness :
    QueueRep exWorld.heap (exWorld.queues 0) ([1] ++ 2 :: [3]) ∧
    ((FlowRequeue exWorld 2 (some 0) 1).queues 0).len = (exWorld.queues 0).len - 1 :=
  ⟨by decide, (flowRequeue_transfer_postcondition exWorld 2 0 1 [1] [3] []
      (by decide) (by decide) (by decide) (by decide)).2.2.1⟩

/-- Witness for C2: records 1, 2, 3 inserted into an empty queue come back
out in the same order. -/
theorem flowQueue_fifo_law_witness :
    (∀ r ∈ [1, 2, 3], (cleanHeap r).lnext = none ∧ (cleanHeap r).lprev = none) ∧
    (dequeueN (enqueueAll cleanHeap emptyQueue [1, 2, 3]).1
      (enqueueAll cleanHeap emptyQueue [1, 2, 3]).2 [1, 2, 3].length).1 =
      [1, 2, 3].map some :=
  ⟨by decide, (flowQueue_fifo_law cleanHeap emptyQueue [1, 2, 3] rfl rfl rfl
      (by decide) (by decide)).1⟩

/-- Witness for C4: moving record 2 from queue 0 to queue 1 and back
restores queue 0's length. -/
theorem flowRequeue_round_trip_witness :
    QueueRep exWorld.heap (exWorld.queues 0) ([1] ++ 2 :: [3]) ∧
    ((FlowRequeue (FlowRequeue exWorld 2 (some 0) 1) 2 (some 1) 0).queues 0).len =
      (exWorld.queues 0).len :=
  ⟨by decide, (flowRequeue_round_trip exWorld 2 0 1 [1] [3] [] (by decide)
      (by decide) (by decide) (by decide)).2.2.2.2.1⟩

/-- Witness for C6: dequeuing from the three-record queue returns record 3,
the one at `bot`. -/
theorem flowDequeue_postcondition_witness :
    QueueRep exHeap exQueue [1, 2, 3] ∧
    (FlowDequeue exHeap exQueue).1 = some 3 :=
  ⟨by decide, ((flowDequeue_postcondition 0 exHeap exQueue [1, 2, 3]
      (by decide)).2.1 [1, 2] 3 rfl).2.1⟩

/-- Witness for C10 at the largest 64-bit timestamp, which exercises the
carry branch (the pre-carry microseconds value is exactly 1000000). -/
theorem erfTimeval_usec_bound_witness :
    (18446744073709551615 : Nat) < 2 ^ 64 ∧
    (erfTimeval 18446744073709551615).tv_usec < 1000000 :=
  ⟨by norm_num, erfTimeval_usec_bound 18446744073709551615 (by norm_num)⟩

end SuricataTilera
